import Mathlib

/-!
# Verification of the PostSoma tools-log pipeline

Shallow embedding of the core of `postsoma-tg-data`:
the JSONL record store (`readLines` / `readJsonl` / `writeJsonl` and the
inline load/save in `scripts/tg_publish.mjs`), the URL canonicalizers
(`normalizeUrl` of the inbox-ingest script and of the issue-ingest script),
id derivation (`tool_` + truncated SHA-1), the publish driver, the
issue-ingest upsert (`items[idx] = { ...items[idx], ...record }`), and the
inbox-ingest append loop.

Strings are modelled as lists of Unicode code points (`List Nat`), JSON
numbers as integers (the log's numeric fields — stars, forks, issue numbers —
are integers; fractional and exponent number forms are outside the model).
-/

namespace PostSoma

/-- Strings as lists of Unicode code points. -/
abbrev Str := List Nat

/-- Convert a Lean string literal to the code-point model (for concrete inputs). -/
def s2n (s : String) : Str := s.data.map Char.toNat

/-! ## JSON values

The log stores one JSON object per line.  JSON values are modelled with
integer numbers and code-point strings; objects are association lists in
insertion order (JavaScript objects preserve insertion order, first
assignment fixes the position of a key). -/

inductive Json where
  | null
  | bool (b : Bool)
  | num (n : Int)
  | str (s : Str)
  | arr (elems : List Json)
  | obj (fields : List (Str × Json))

mutual

/-- Size measure used for structural induction over the nested `Json` type. -/
def jsize : Json → Nat
  | .null => 1
  | .bool _ => 1
  | .num _ => 1
  | .str _ => 1
  | .arr xs => 1 + jsizeList xs
  | .obj kvs => 1 + jsizeFields kvs

def jsizeList : List Json → Nat
  | [] => 0
  | x :: r => jsize x + 1 + jsizeList r

def jsizeFields : List (Str × Json) → Nat
  | [] => 0
  | kv :: r => jsize kv.2 + 1 + jsizeFields r

end

/-- First-occurrence field lookup in an association list (JavaScript property
access on an object whose keys are unique, and `Map`-like lookup otherwise). -/
def lookupKey (k : Str) : List (Str × Json) → Option Json
  | [] => none
  | (k2, v) :: r => if k2 = k then some v else lookupKey k r

/-- JavaScript property read `o[k]`; `undefined` (absent key or non-object
receiver) is modelled as `none`. -/
def getField : Json → Str → Option Json
  | .obj kvs, k => lookupKey k kvs
  | _, _ => none

/-- JavaScript property write `o[k] = v`: replaces the value in place when the
key exists, appends the key otherwise; no effect on non-objects. -/
def setKeyL (k : Str) (v : Json) : List (Str × Json) → List (Str × Json)
  | [] => [(k, v)]
  | (k2, w) :: r => if k2 = k then (k2, v) :: r else (k2, w) :: setKeyL k v r

def setField : Json → Str → Json → Json
  | .obj kvs, k, v => .obj (setKeyL k v kvs)
  | j, _, _ => j

/-- JavaScript truthiness of a JSON value. -/
def jsTruthy : Json → Bool
  | .null => false
  | .bool b => b
  | .num n => !(n == 0)
  | .str s => !s.isEmpty
  | .arr _ => true
  | .obj _ => true

/-! ## JSON.stringify model

`JSON.stringify` as invoked by the scripts (no indent argument in the
store paths): no whitespace, strings escaped with `\"`, `\\`, the short
control escapes and `\u00XX` for other control characters. -/

def hexDigitCh (n : Nat) : Nat := if n < 10 then 48 + n else 87 + n

def escChar (c : Nat) : Str :=
  if c = 34 then [92, 34]
  else if c = 92 then [92, 92]
  else if c = 8 then [92, 98]
  else if c = 9 then [92, 116]
  else if c = 10 then [92, 110]
  else if c = 12 then [92, 102]
  else if c = 13 then [92, 114]
  else if c < 32 then [92, 117, 48, 48, hexDigitCh (c / 16), hexDigitCh (c % 16)]
  else [c]

def escapeStr (s : Str) : Str := (s.map escChar).flatten

/-- Decimal digits of a natural number, most significant first. -/
def natDigits (n : Nat) : Str :=
  if h : n < 10 then [48 + n] else natDigits (n / 10) ++ [48 + n % 10]
decreasing_by exact Nat.div_lt_self (by omega) (by omega)

/-- Decimal rendering of an integer (model of `String(n)` / number serialization). -/
def intStr : Int → Str
  | .ofNat n => natDigits n
  | .negSucc m => 45 :: natDigits (m + 1)

/-- Serialized string literal: quote, escaped body, quote. -/
def strLit (s : Str) : Str := 34 :: escapeStr s ++ [34]

mutual

def stringify : Json → Str
  | .null => [110, 117, 108, 108]
  | .bool true => [116, 114, 117, 101]
  | .bool false => [102, 97, 108, 115, 101]
  | .num n => intStr n
  | .str s => strLit s
  | .arr xs => 91 :: stringifyItems xs ++ [93]
  | .obj kvs => 123 :: stringifyFields kvs ++ [125]

def stringifyItems : List Json → Str
  | [] => []
  | [x] => stringify x
  | x :: y :: r => stringify x ++ 44 :: stringifyItems (y :: r)

def stringifyFields : List (Str × Json) → Str
  | [] => []
  | [kv] => strLit kv.1 ++ 58 :: stringify kv.2
  | kv :: kv2 :: r => strLit kv.1 ++ 58 :: stringify kv.2 ++ 44 :: stringifyFields (kv2 :: r)

end

/-! ## JSON.parse model

Recursive-descent parser for the JSON grammar (numbers restricted to
integers, see the header note).  `parseValF` carries fuel bounding the
nesting/iteration depth; the top-level `parseJson` supplies fuel
`length + 1`, which is sufficient (each unit of fuel is paid for by at
least one consumed character). -/

def isWsCh (c : Nat) : Bool := c = 32 || c = 9 || c = 10 || c = 13

def skipWs : Str → Str
  | [] => []
  | c :: r => if isWsCh c then skipWs r else c :: r

def isDigitCh (c : Nat) : Bool := 48 ≤ c && c ≤ 57

def hexVal (c : Nat) : Option Nat :=
  if 48 ≤ c && c ≤ 57 then some (c - 48)
  else if 97 ≤ c && c ≤ 102 then some (c - 87)
  else if 65 ≤ c && c ≤ 70 then some (c - 55)
  else none

def unescCh (e : Nat) : Option Nat :=
  if e = 34 then some 34
  else if e = 92 then some 92
  else if e = 47 then some 47
  else if e = 98 then some 8
  else if e = 102 then some 12
  else if e = 110 then some 10
  else if e = 114 then some 13
  else if e = 116 then some 9
  else none

/-- Parse the body of a string literal (after the opening quote); returns the
decoded content and the remainder after the closing quote. -/
def parseStrBody : Str → Option (Str × Str)
  | [] => none
  | c :: rest =>
    if c = 34 then some ([], rest)
    else if c = 92 then
      match rest with
      | [] => none
      | e :: r2 =>
        if e = 117 then
          match r2 with
          | h1 :: h2 :: h3 :: h4 :: r3 => do
            let a ← hexVal h1
            let b ← hexVal h2
            let cc ← hexVal h3
            let d ← hexVal h4
            let (s, r4) ← parseStrBody r3
            some ((((a * 16 + b) * 16 + cc) * 16 + d) :: s, r4)
          | _ => none
        else do
          let c2 ← unescCh e
          let (s, r3) ← parseStrBody r2
          some (c2 :: s, r3)
    else if c < 32 then none
    else do
      let (s, r2) ← parseStrBody rest
      some (c :: s, r2)

/-- Accumulating decimal-digit reader. -/
def parseDigits : Str → Nat → Nat × Str
  | [], acc => (acc, [])
  | c :: r, acc => if isDigitCh c then parseDigits r (acc * 10 + (c - 48)) else (acc, c :: r)

/-- Parse an unsigned JSON integer (leading-zero rule of the JSON grammar). -/
def parseNum : Str → Option (Nat × Str)
  | [] => none
  | c :: rest =>
    if isDigitCh c then
      if c = 48 then
        match rest with
        | d :: _ => if isDigitCh d then none else some (0, rest)
        | [] => some (0, [])
      else some (parseDigits rest (c - 48))
    else none

/-- Expect a literal suffix (used for `null` / `true` / `false`). -/
def expectLit : Str → Str → Option Str
  | [], s => some s
  | l :: ls, c :: s => if c = l then expectLit ls s else none
  | _ :: _, [] => none

/-- JavaScript object-literal / `JSON.parse` key insertion: a repeated key
keeps the position of its first occurrence and takes the later value. -/
def objCons (k : Str) (v : Json) (kvs : List (Str × Json)) : List (Str × Json) :=
  match lookupKey k kvs with
  | some w => (k, w) :: kvs.filter (fun kv => kv.1 ≠ k)
  | none => (k, v) :: kvs

mutual

def parseValF : Nat → Str → Option (Json × Str)
  | 0, _ => none
  | f + 1, input =>
    match skipWs input with
    | [] => none
    | c :: rest =>
      if c = 110 then (expectLit [117, 108, 108] rest).map (fun r => (.null, r))
      else if c = 116 then (expectLit [114, 117, 101] rest).map (fun r => (.bool true, r))
      else if c = 102 then (expectLit [97, 108, 115, 101] rest).map (fun r => (.bool false, r))
      else if c = 34 then (parseStrBody rest).map (fun p => (.str p.1, p.2))
      else if c = 91 then
        match skipWs rest with
        | [] => none
        | d :: r2 =>
          if d = 93 then some (.arr [], r2)
          else (parseArrItemsF f (d :: r2)).map (fun p => (.arr p.1, p.2))
      else if c = 123 then
        match skipWs rest with
        | [] => none
        | d :: r2 =>
          if d = 125 then some (.obj [], r2)
          else (parseObjItemsF f (d :: r2)).map (fun p => (.obj p.1, p.2))
      else if c = 45 then (parseNum rest).map (fun p => (.num (-(p.1 : Int)), p.2))
      else if isDigitCh c then (parseNum (c :: rest)).map (fun p => (.num (p.1 : Int), p.2))
      else none

def parseArrItemsF : Nat → Str → Option (List Json × Str)
  | 0, _ => none
  | f + 1, input => do
    let (v, r) ← parseValF f input
    match skipWs r with
    | [] => none
    | c :: r2 =>
      if c = 44 then
        let (xs, r3) ← parseArrItemsF f r2
        some (v :: xs, r3)
      else if c = 93 then some ([v], r2)
      else none

def parseObjItemsF : Nat → Str → Option (List (Str × Json) × Str)
  | 0, _ => none
  | f + 1, input =>
    match skipWs input with
    | [] => none
    | c :: rest =>
      if c = 34 then do
        let (k, r1) ← parseStrBody rest
        match skipWs r1 with
        | [] => none
        | d :: r2 =>
          if d = 58 then do
            let (v, r3) ← parseValF f r2
            match skipWs r3 with
            | [] => none
            | e :: r4 =>
              if e = 44 then
                let (kvs, r5) ← parseObjItemsF f r4
                some (objCons k v kvs, r5)
              else if e = 125 then some ([(k, v)], r4)
              else none
          else none
      else none

end

/-- Model of `JSON.parse` on a whole document. -/
def parseJson (s : Str) : Option Json :=
  match parseValF (s.length + 1) s with
  | some (v, r) => if skipWs r = [] then some v else none
  | none => none

/-! ## Well-formed JSON values

Objects with pairwise-distinct keys at every level — the values JavaScript
objects can actually hold (`JSON.parse` never produces a duplicate key). -/

def keysNodup : List (Str × Json) → Bool
  | [] => true
  | (k, _) :: r => (lookupKey k r).isNone && keysNodup r

mutual

def wfB : Json → Bool
  | .null => true
  | .bool _ => true
  | .num _ => true
  | .str _ => true
  | .arr xs => wfListB xs
  | .obj kvs => keysNodup kvs && wfFieldsB kvs

def wfListB : List Json → Bool
  | [] => true
  | x :: r => wfB x && wfListB r

def wfFieldsB : List (Str × Json) → Bool
  | [] => true
  | kv :: r => wfB kv.2 && wfFieldsB r

end

/-! ## Record store (the JSONL log)

`readLines` (publish script) splits the file on `\n` and drops empty lines
(`filter(Boolean)`), then the caller maps `JSON.parse`-or-`null` over the
lines and drops falsy results (`filter(Boolean)` again — this also drops a
line whose *parsed value* is falsy, e.g. a literal `null` line).
`readJsonl` (issue-ingest script) is the same composition.  A missing file
yields `[]`.  Writers serialize every item, join with `\n` and append a
trailing newline, replacing the whole file. -/

/-- Split on a single separator character, keeping empty segments. -/
def splitCh (sep : Nat) : Str → List Str
  | [] => [[]]
  | c :: r =>
    if c = sep then [] :: splitCh sep r
    else
      match splitCh sep r with
      | [] => [[c]]
      | l :: ls => (c :: l) :: ls

/-- `txt.split(/\n/)` — literal split, keeping empty segments. -/
def splitNl : Str → List Str := splitCh 10

/-- `Array.prototype.join` with a one-character separator. -/
def joinSep (sep : Nat) : List Str → Str
  | [] => []
  | [l] => l
  | l :: l2 :: r => l ++ sep :: joinSep sep (l2 :: r)

def joinNl (ls : List Str) : Str := joinSep 10 ls

/-- Load from file content: split, drop blank lines, parse each line
independently, drop lines that fail to parse (and falsy parsed values). -/
def loadItemsStr (content : Str) : List Json :=
  ((splitNl content).filter (fun l => !l.isEmpty)).filterMap
    (fun l =>
      match parseJson l with
      | some v => if jsTruthy v then some v else none
      | none => none)

/-- Load from an optional file (`none` = the file does not exist). -/
def loadItems : Option Str → List Json
  | none => []
  | some c => loadItemsStr c

/-- `items.map(JSON.stringify).join('\n') + '\n'` — the full-rewrite save. -/
def saveItems (items : List Json) : Str := joinNl (items.map stringify) ++ [10]

/-! ## SHA-1 and id derivation

`sha1` (node `crypto.createHash('sha1')` over the UTF-8 bytes) and
`deriveId`: `tool_` + first 12 hex digits of the digest. -/

def utf8Char (c : Nat) : List Nat :=
  if c < 128 then [c]
  else if c < 2048 then [192 + c / 64, 128 + c % 64]
  else if c < 65536 then [224 + c / 4096, 128 + (c / 64) % 64, 128 + c % 64]
  else [240 + c / 262144, 128 + (c / 4096) % 64, 128 + (c / 64) % 64, 128 + c % 64]

def utf8Encode (s : Str) : List Nat := (s.map utf8Char).flatten

def w32 : Nat := 4294967296

def rotl (n x : Nat) : Nat := ((x <<< n) % w32) ||| (x >>> (32 - n))

def sha1F (t b c d : Nat) : Nat :=
  if t < 20 then (b &&& c) ||| ((b ^^^ 4294967295) &&& d)
  else if t < 40 then b ^^^ c ^^^ d
  else if t < 60 then ((b &&& c) ||| (b &&& d)) ||| (c &&& d)
  else b ^^^ c ^^^ d

def sha1K (t : Nat) : Nat :=
  if t < 20 then 1518500249
  else if t < 40 then 1859775393
  else if t < 60 then 2400959708
  else 3395469782

/-- Big-endian 4-byte groups to 32-bit words. -/
def bytesToWords : List Nat → List Nat
  | b0 :: b1 :: b2 :: b3 :: r => (((b0 * 256 + b1) * 256 + b2) * 256 + b3) :: bytesToWords r
  | _ => []

/-- Expand 16 words to the 80-word message schedule. -/
def sha1Expand (w16 : List Nat) : List Nat :=
  (List.range 64).foldl
    (fun acc _ =>
      let n := acc.length
      let x := ((acc.getD (n - 3) 0 ^^^ acc.getD (n - 8) 0) ^^^ acc.getD (n - 14) 0) ^^^ acc.getD (n - 16) 0
      acc ++ [rotl 1 x])
    w16

def sha1Compress (h : Nat × Nat × Nat × Nat × Nat) (words : List Nat) :
    Nat × Nat × Nat × Nat × Nat :=
  let (h0, h1, h2, h3, h4) := h
  let step := fun (st : Nat × Nat × Nat × Nat × Nat) (tw : Nat × Nat) =>
    let (a, b, c, d, e) := st
    let (t, w) := tw
    let tmp := (rotl 5 a + sha1F t b c d + e + sha1K t + w) % w32
    (tmp, a, rotl 30 b, c, d)
  let (a, b, c, d, e) := ((List.range 80).zip words).foldl step (h0, h1, h2, h3, h4)
  ((h0 + a) % w32, (h1 + b) % w32, (h2 + c) % w32, (h3 + d) % w32, (h4 + e) % w32)

/-- Big-endian 8-byte encoding of the bit length. -/
def be8 (n : Nat) : List Nat :=
  [(n >>> 56) % 256, (n >>> 48) % 256, (n >>> 40) % 256, (n >>> 32) % 256,
   (n >>> 24) % 256, (n >>> 16) % 256, (n >>> 8) % 256, n % 256]

def sha1Pad (msg : List Nat) : List Nat :=
  msg ++ 128 :: List.replicate ((119 - msg.length % 64) % 64) 0 ++ be8 (msg.length * 8)

def chunks64 : Nat → List Nat → List (List Nat)
  | 0, _ => []
  | _, [] => []
  | f + 1, l => l.take 64 :: chunks64 f (l.drop 64)

def word8Hex (w : Nat) : Str :=
  [hexDigitCh ((w >>> 28) % 16), hexDigitCh ((w >>> 24) % 16),
   hexDigitCh ((w >>> 20) % 16), hexDigitCh ((w >>> 16) % 16),
   hexDigitCh ((w >>> 12) % 16), hexDigitCh ((w >>> 8) % 16),
   hexDigitCh ((w >>> 4) % 16), hexDigitCh (w % 16)]

/-- Lowercase hex SHA-1 digest of a byte sequence. -/
def sha1Hex (msg : List Nat) : Str :=
  let padded := sha1Pad msg
  let blocks := chunks64 (padded.length + 1) padded
  let dig := blocks.foldl
    (fun st blk => sha1Compress st (sha1Expand (bytesToWords blk)))
    (1732584193, 4023233417, 2562383102, 271733878, 3285377520)
  let (d0, d1, d2, d3, d4) := dig
  word8Hex d0 ++ word8Hex d1 ++ word8Hex d2 ++ word8Hex d3 ++ word8Hex d4

/-- `` id = `tool_${sha1(canonical).slice(0, 12)}` `` — identical in both the
inbox-ingest and the issue-ingest scripts. -/
def deriveId (canonical : Str) : Str := s2n "tool_" ++ (sha1Hex (utf8Encode canonical)).take 12

/-! ## URL model

Model of the WHATWG `URL` class as the two `normalizeUrl` functions use it:
`scheme://host[:port]path[?query][#fragment]`.  The scheme and host are
lowercased at parse time, the path keeps its case, an absent path serializes
as `/`.  A string without an `alpha(alnum|+|-|.)*://` prefix fails to parse
(`new URL` throws).  Out of model scope: percent-encoding, dot-segment
resolution, userinfo, IPv6 hosts, and non-special schemes without `//` —
none of which the scripts' inputs rely on.

`u.search` is kept as the raw query text: `URLSearchParams` re-serializes
the query only when a `delete` actually occurs, which `deleteTracked`
reproduces. -/

structure URLRec where
  scheme : Str
  host : Str
  port : Str
  path : Str
  search : Str
  frag : Str
  deriving DecidableEq, Repr

def isAlphaCh (c : Nat) : Bool := (65 ≤ c && c ≤ 90) || (97 ≤ c && c ≤ 122)

def isSchemeCh (c : Nat) : Bool := isAlphaCh c || isDigitCh c || c = 43 || c = 45 || c = 46

def toLowerCh (c : Nat) : Nat := if 65 ≤ c && c ≤ 90 then c + 32 else c

def parseURL (s : Str) : Option URLRec :=
  let (sch, rest) := s.span isSchemeCh
  match rest with
  | 58 :: 47 :: 47 :: r =>
    if sch.isEmpty || !isAlphaCh (sch.headD 0) then none
    else
      let (auth, r2) := r.span (fun c => !(c == 47 || c == 63 || c == 35))
      if auth.isEmpty then none
      else
        let (host, portRest) := auth.span (fun c => c != 58)
        let port := match portRest with | 58 :: p => p | _ => []
        let (path0, r3) := r2.span (fun c => !(c == 63 || c == 35))
        let (search, frag) :=
          match r3 with
          | 63 :: r4 =>
            let (q, r5) := r4.span (fun c => c != 35)
            (q, match r5 with | 35 :: r6 => r6 | _ => [])
          | 35 :: r4 => (([] : Str), r4)
          | _ => (([] : Str), ([] : Str))
        some { scheme := sch.map toLowerCh, host := host.map toLowerCh, port := port,
               path := if path0.isEmpty then [47] else path0, search := search, frag := frag }
  | _ => none

def urlToString (u : URLRec) : Str :=
  u.scheme ++ [58, 47, 47] ++ u.host ++ (if u.port.isEmpty then [] else 58 :: u.port) ++ u.path
    ++ (if u.search.isEmpty then [] else 63 :: u.search)
    ++ (if u.frag.isEmpty then [] else 35 :: u.frag)

/-- `URLSearchParams` view of a raw query string: split on `&`, drop empty
segments, split each at the first `=`. -/
def parsePair (seg : Str) : Str × Str :=
  let (k, rest) := seg.span (fun c => c != 61)
  (k, match rest with | 61 :: v => v | _ => [])

def parseParams (search : Str) : List (Str × Str) :=
  ((splitCh 38 search).filter (fun seg => !seg.isEmpty)).map parsePair

def serPair (p : Str × Str) : Str := p.1 ++ 61 :: p.2

def serParams (ps : List (Str × Str)) : Str := joinSep 38 (ps.map serPair)

/-- The fixed tracking-parameter set of the inbox-ingest `normalizeUrl`. -/
def trackingParams : List Str :=
  [s2n "utm_source", s2n "utm_medium", s2n "utm_campaign", s2n "utm_term", s2n "utm_content",
   s2n "ref", s2n "ref_src", s2n "fbclid", s2n "gclid", s2n "igshid"]

/-- `[...u.searchParams.keys()].forEach(k => { if (strip.has(k)) u.searchParams.delete(k) })`:
when at least one tracked key is present the query is re-serialized from the
remaining pairs, otherwise the raw query text is left untouched. -/
def deleteTracked (u : URLRec) : URLRec :=
  let ps := parseParams u.search
  if ps.any (fun p => trackingParams.contains p.1) then
    { u with search := serParams (ps.filter (fun p => !trackingParams.contains p.1)) }
  else u

def stripTrailingSlashes (p : Str) : Str := (p.reverse.dropWhile (fun c => c == 47)).reverse

/-- `if (u.pathname.length > 1) u.pathname = u.pathname.replace(/\/+$/, '')`
(a path that becomes empty re-serializes as `/`). -/
def setPathStripped (u : URLRec) : URLRec :=
  if 1 < u.path.length then
    let p := stripTrailingSlashes u.path
    { u with path := if p.isEmpty then [47] else p }
  else u

/-- `if (u.protocol === 'http:') u.protocol = 'https:'`. -/
def upgradeHttp (u : URLRec) : URLRec :=
  if u.scheme = s2n "http" then { u with scheme := s2n "https" } else u

/-- `normalizeUrl` of the inbox-ingest script: strip the tracking parameters,
clear the fragment, strip trailing slashes off a non-root path, upgrade
`http` to `https`; a string `new URL` rejects is returned unchanged. -/
def inboxNormalizeUrl (url : Str) : Str :=
  match parseURL url with
  | none => url
  | some u => urlToString (upgradeHttp (setPathStripped { deleteTracked u with frag := [] }))

/-- `normalizeUrl` of the issue-ingest script: clears the *entire* query
(`u.search = ''`) instead of the fixed tracking set; otherwise the same. -/
def issueNormalizeUrl (url : Str) : Str :=
  match parseURL url with
  | none => url
  | some u => urlToString (upgradeHttp (setPathStripped { u with frag := [], search := [] }))

/-- Modelled from the spec §4.1 (the `canonicalize` contract): parse as URL
(failure returns the original string unchanged), remove a fixed set of known
tracking query parameters, clear the fragment, strip trailing slashes when
the path is more than a single `/`, upgrade `http` to `https` — the steps
stated in the spec's order. -/
def specCanonicalize (raw : Str) : Str :=
  match parseURL raw with
  | none => raw
  | some u =>
    let u1 := deleteTracked u
    let u2 := { u1 with frag := [] }
    let u3 := setPathStripped u2
    let u4 := upgradeHttp u3
    urlToString u4

/-- The same spec steps with the query step replaced by clearing all query
parameters (what the issue-ingest canonicalizer actually does). -/
def specCanonicalizeDropQuery (raw : Str) : Str :=
  match parseURL raw with
  | none => raw
  | some u =>
    let u1 := { u with search := [] }
    let u2 := { u1 with frag := [] }
    let u3 := setPathStripped u2
    let u4 := upgradeHttp u3
    urlToString u4

/-! ## Publish driver (`scripts/tg_publish.mjs`)

The driver loads the log, picks the *first* item with `status === 'inbox'`,
builds a message (network reads that cannot change the log), sends it, and
only on a confirmed successful send marks the item posted and rewrites the
whole file.  A failed send throws before any write.  The send outcome and
the timestamp are inputs of the model. -/

def isInboxItem (it : Json) : Bool :=
  match getField it (s2n "status") with
  | some (.str s) => s == s2n "inbox"
  | _ => false

inductive SendOutcome where
  | fail
  | ok (messageId : Option Int)
  deriving DecidableEq, Repr

inductive PubResult where
  | noInbox
  | sendFailed
  | posted
  deriving DecidableEq, Repr

/-- `String(result.message_id ?? '')`. -/
def jsStringOrEmpty : Option Int → Str
  | none => []
  | some n => intStr n

/-- The `// Mark posted` block: `next.status = 'posted'; next.updated_at = postedAt;
next.published = { channel, post_id, posted_at }`. -/
def markPosted (it : Json) (postedAt : Str) (messageId : Option Int) : Json :=
  let it1 := setField it (s2n "status") (.str (s2n "posted"))
  let it2 := setField it1 (s2n "updated_at") (.str postedAt)
  setField it2 (s2n "published")
    (.obj [(s2n "channel", .str (s2n "telegram")),
           (s2n "post_id", .str (jsStringOrEmpty messageId)),
           (s2n "posted_at", .str postedAt)])

/-- One publish-driver run over the log file (`none` = missing file).
Returns the resulting on-disk file state and the run outcome. -/
def publishRun (file : Option Str) (send : SendOutcome) (postedAt : Str) :
    Option Str × PubResult :=
  let items := loadItems file
  match items.findIdx? isInboxItem with
  | none => (file, .noInbox)
  | some i =>
    match send with
    | .fail => (file, .sendFailed)
    | .ok messageId =>
      let items2 := items.set i (markPosted (items.getD i .null) postedAt messageId)
      (some (saveItems items2), .posted)

/-! ## Issue-ingest driver (the GitHub-issue script)

Per extracted repo URL: canonicalize, derive the id, fetch repo metadata and
optional enrichment (inputs of the model), build a full record with
`status: 'enriched'`, and upsert it: `items[idx] = { ...items[idx], ...record }`
when the id is already present, `items.push(record)` otherwise. -/

structure RepoMeta where
  full_name : Str
  description : Option Str
  stars : Int
  forks : Int
  language : Option Str
  license : Option Str
  updated_at : Str
  pushed_at : Str
  deriving DecidableEq, Repr

structure Enrich where
  summary : Option Str
  highlights : List Str
  tags : List Str
  deriving DecidableEq, Repr

def optStrJson : Option Str → Json
  | none => .null
  | some s => .str s

/-- `parseGitHubRepo`: requires host `github.com` and at least two path
segments; throws (`none`) otherwise. -/
def parseGitHubRepo (url : Str) : Option (Str × Str) :=
  match parseURL url with
  | none => none
  | some u =>
    if u.host ≠ s2n "github.com" then none
    else
      match (splitCh 47 u.path).filter (fun seg => !seg.isEmpty) with
      | o :: r :: _ => some (o, r)
      | _ => none

/-- The candidate record the issue-ingest driver builds (source order of the
object literal preserved).  `existing` is `items[idx]` when the id was found
(`none` otherwise) — it feeds only the `created_at` fallback
`idx >= 0 ? (items[idx].created_at || now) : now`. -/
def buildIssueRecord (canonical owner repoName : Str) (meta : RepoMeta)
    (enrich : Option Enrich) (issueNumber : Int) (now : Str) (existing : Option Json) : Json :=
  let id := deriveId canonical
  let summary : Json :=
    match enrich with
    | some e =>
      match e.summary with
      | some s => .str s
      | none => optStrJson meta.description
    | none => optStrJson meta.description
  let tags : Json :=
    match enrich with
    | some e => if e.tags.isEmpty then .arr [.str (s2n "dev/open-source")] else .arr (e.tags.map .str)
    | none => .arr [.str (s2n "dev/open-source")]
  let createdAt : Json :=
    match existing with
    | some ex =>
      match getField ex (s2n "created_at") with
      | some v => if jsTruthy v then v else .str now
      | none => .str now
    | none => .str now
  let highlights : Json :=
    match enrich with
    | some e => .arr (e.highlights.map .str)
    | none => .arr []
  .obj [
    (s2n "id", .str id),
    (s2n "url", .str canonical),
    (s2n "canonical_url", .str canonical),
    (s2n "title", .str meta.full_name),
    (s2n "summary", summary),
    (s2n "tags", tags),
    (s2n "language", .str (s2n "en")),
    (s2n "source", .obj [
      (s2n "type", .str (s2n "github")),
      (s2n "owner", .str owner),
      (s2n "repo", .str repoName),
      (s2n "issue", .num issueNumber)]),
    (s2n "status", .str (s2n "enriched")),
    (s2n "created_at", createdAt),
    (s2n "updated_at", .str now),
    (s2n "content", .obj [
      (s2n "highlights", highlights),
      (s2n "repo", .str canonical),
      (s2n "metrics", .obj [
        (s2n "stars", .num meta.stars),
        (s2n "forks", .num meta.forks),
        (s2n "language", optStrJson meta.language),
        (s2n "license", optStrJson meta.license),
        (s2n "updated_at", .str meta.updated_at),
        (s2n "pushed_at", .str meta.pushed_at)])])]

/-- JavaScript object spread `{ ...a, ...b }`: keys of `a` keep their
positions, a key also in `b` takes `b`'s value; keys only in `b` are
appended in `b`'s order. -/
def spreadObj (a b : List (Str × Json)) : List (Str × Json) :=
  (a.map (fun kv => (kv.1, (lookupKey kv.1 b).getD kv.2))) ++
    b.filter (fun kv => (lookupKey kv.1 a).isNone)

/-- `{ ...items[idx], ...record }` (both operands are objects in every
reachable call). -/
def spreadMerge (a b : Json) : Json :=
  match a, b with
  | .obj xs, .obj ys => .obj (spreadObj xs ys)
  | _, .obj ys => .obj ys
  | .obj xs, _ => .obj xs
  | _, _ => .obj []

/-- `items.findIndex(it => it.id === id)` — strict equality against a string. -/
def idMatches (id : Str) (it : Json) : Bool :=
  match getField it (s2n "id") with
  | some (.str s) => s == id
  | _ => false

/-- One iteration of the issue-ingest per-URL loop (metadata and enrichment
results are inputs; `none` only when `parseGitHubRepo` throws).  Returns the
new collection, the `updated` flag, and the derived id. -/
def issueIngestStep (items : List Json) (u : Str) (meta : RepoMeta)
    (enrich : Option Enrich) (issueNumber : Int) (now : Str) :
    Option (List Json × Bool × Str) :=
  let canonical := issueNormalizeUrl u
  match parseGitHubRepo canonical with
  | none => none
  | some (owner, repoName) =>
    let id := deriveId canonical
    match items.findIdx? (idMatches id) with
    | some idx =>
      let record := buildIssueRecord canonical owner repoName meta enrich issueNumber now
        (some (items.getD idx .null))
      some (items.set idx (spreadMerge (items.getD idx .null) record), true, id)
    | none =>
      let record := buildIssueRecord canonical owner repoName meta enrich issueNumber now none
      some (items ++ [record], false, id)

/-! ## Inbox-ingest driver (the Telegram polling script)

Per update: take the message payload if any, skip messages from other chats,
extract the (set-deduplicated) URLs of the text, and for each URL derive the
id and append a fresh `status: 'inbox'` item unless the id is already known.
`existingIds` starts as the ids found on the parsable lines of the log. -/

structure TgMsg where
  chat_id : Str
  text : Str
  message_id : Str
  author : Json
  dateIso : Str

structure TgUpdate where
  msg : Option TgMsg

/-- Character class `[^\s)\]}>"']` of the URL-extraction regex (complemented). -/
def urlStopCh (c : Nat) : Bool :=
  isWsCh c || c = 11 || c = 12 || c = 41 || c = 93 || c = 125 || c = 62 || c = 34 || c = 39

/-- Try to match `https?:\/\/[^\s)\]}>"']+` at the head of the string. -/
def tryUrlAt (s : Str) : Option (Str × Str) :=
  match s with
  | 104 :: 116 :: 116 :: 112 :: r =>
    match r with
    | 115 :: 58 :: 47 :: 47 :: r2 =>
      let (run, rest) := r2.span (fun c => !urlStopCh c)
      if run.isEmpty then none
      else some ([104, 116, 116, 112, 115, 58, 47, 47] ++ run, rest)
    | 58 :: 47 :: 47 :: r2 =>
      let (run, rest) := r2.span (fun c => !urlStopCh c)
      if run.isEmpty then none
      else some ([104, 116, 116, 112, 58, 47, 47] ++ run, rest)
    | _ => none
  | _ => none

/-- Left-to-right regex scan (`re.exec` loop); the fuel is the input length,
which bounds the number of scan steps since every step consumes at least one
character. -/
def extractAllUrlsF : Nat → Str → List Str
  | 0, _ => []
  | f + 1, s =>
    match s with
    | [] => []
    | c :: rest =>
      match tryUrlAt (c :: rest) with
      | some p => p.1 :: extractAllUrlsF f p.2
      | none => extractAllUrlsF f rest

/-- Insertion-ordered `Set` deduplication. -/
def dedupKeepFirst (l : List Str) : List Str :=
  l.foldl (fun acc x => if x ∈ acc then acc else acc ++ [x]) []

def extractUrls (text : Str) : List Str := dedupKeepFirst (extractAllUrlsF text.length text)

/-- The fresh item the inbox ingester pushes (object-literal order preserved). -/
def buildInboxItem (rawUrl canonical id : Str) (m : TgMsg) : Json :=
  .obj [
    (s2n "id", .str id),
    (s2n "url", .str rawUrl),
    (s2n "canonical_url", .str canonical),
    (s2n "title", .str canonical),
    (s2n "summary", .null),
    (s2n "tags", .arr []),
    (s2n "language", .str (s2n "en")),
    (s2n "source", .obj [
      (s2n "type", .str (s2n "tg")),
      (s2n "chat_id", .str m.chat_id),
      (s2n "message_id", .str m.message_id),
      (s2n "author", m.author)]),
    (s2n "status", .str (s2n "inbox")),
    (s2n "created_at", .str m.dateIso),
    (s2n "updated_at", .null)]

/-- Per-URL step: skip when the id is already known, otherwise record the id
and push the new item. -/
def ingestUrlStep (m : TgMsg) (st : List Str × List Json) (rawUrl : Str) :
    List Str × List Json :=
  let (ids, acc) := st
  let canonical := inboxNormalizeUrl rawUrl
  let id := deriveId canonical
  if id ∈ ids then (ids, acc)
  else (id :: ids, acc ++ [buildInboxItem rawUrl canonical id m])

/-- Per-update step: `u.message || u.edited_message || u.channel_post ||
u.edited_channel_post` collapses to the optional message payload; messages
from chats other than the inbox chat are skipped. -/
def ingestUpdateStep (inboxChat : Str) (st : List Str × List Json) (u : TgUpdate) :
    List Str × List Json :=
  match u.msg with
  | none => st
  | some m =>
    if m.chat_id ≠ inboxChat then st
    else (extractUrls m.text).foldl (ingestUrlStep m) st

/-- The new items appended by one inbox-ingest run. -/
def ingestRun (inboxChat : Str) (existingIds : List Str) (updates : List TgUpdate) :
    List Json :=
  (updates.foldl (ingestUpdateStep inboxChat) (existingIds, [])).2

/-- One line of the duplicate-avoidance scan: skip whitespace-only lines
(`!line.trim()`), then `JSON.parse(line).id` under try/catch.  Only string
ids can ever compare equal to a derived id, so non-string ids are dropped. -/
def lineExistingId (l : Str) : Option Str :=
  if (skipWs l).isEmpty then none
  else
    match parseJson l with
    | some v =>
      match getField v (s2n "id") with
      | some (.str s) => some s
      | _ => none
    | none => none

def buildExistingIds (content : Str) : List Str := (splitNl content).filterMap lineExistingId

/-! ## Auxiliary notions used only in statements and proofs -/

/-- Is the value a JSON object (the shape every item of the log's data model
has)? -/
def isObjB : Json → Bool
  | .obj _ => true
  | _ => false

/-- The `id` field of an item when it is a string (the only case that can
compare equal to a derived id). -/
def itemIdStr (it : Json) : Option Str :=
  match getField it (s2n "id") with
  | some (.str s) => some s
  | _ => none

/-! ### Concrete fixtures used by counterexamples and witnesses -/

/-- A posted item as the publish driver would have written it. -/
def fixPostedItem : Json :=
  .obj [(s2n "id", .str (s2n "tool_b1")), (s2n "status", .str (s2n "posted")),
        (s2n "created_at", .str (s2n "2026-01-01T00:00:00Z"))]

/-- A pending item waiting in the inbox state. -/
def fixInboxItem : Json :=
  .obj [(s2n "id", .str (s2n "tool_a1")), (s2n "title", .str (s2n "Example Tool")),
        (s2n "status", .str (s2n "inbox")),
        (s2n "created_at", .str (s2n "2026-01-02T00:00:00Z"))]

/-- A two-item log file: one posted item, one inbox item. -/
def fixFile : Str := saveItems [fixPostedItem, fixInboxItem]

/-- Repository metadata as returned by the GitHub API model. -/
def fixMeta : RepoMeta :=
  { full_name := s2n "acme/tool", description := none, stars := 5, forks := 1,
    language := none, license := none,
    updated_at := s2n "2026-02-01T00:00:00Z", pushed_at := s2n "2026-02-01T00:00:00Z" }

def fixUrl : Str := s2n "https://github.com/acme/tool"

def fixId : Str := deriveId (issueNormalizeUrl fixUrl)

/-- An already-curated item for `fixUrl`: populated tags, provenance, extra
content keys, posted status, and a set creation time. -/
def fixExisting : Json :=
  .obj [(s2n "id", .str fixId),
        (s2n "tags", .arr [.str (s2n "security/privacy")]),
        (s2n "source", .obj [(s2n "type", .str (s2n "tg"))]),
        (s2n "content", .obj [(s2n "pricing", .str (s2n "free")),
                              (s2n "highlights", .arr [.str (s2n "h1")])]),
        (s2n "published", .obj [(s2n "channel", .str (s2n "telegram"))]),
        (s2n "status", .str (s2n "posted")),
        (s2n "created_at", .str (s2n "2026-01-01T00:00:00Z"))]

/-- The same item but with a `null` creation time. -/
def fixExistingNullCreated : Json :=
  .obj [(s2n "id", .str fixId), (s2n "status", .str (s2n "posted")),
        (s2n "created_at", .null)]

def fixNow : Str := s2n "2026-03-01T00:00:00Z"

/-- A Telegram message in the inbox chat whose text carries one URL. -/
def fixMsg : TgMsg :=
  { chat_id := s2n "-1001234", text := s2n "try https://github.com/acme/tool today",
    message_id := s2n "42", author := .str (s2n "alice"),
    dateIso := s2n "2026-01-02T00:00:00Z" }

def fixUpdate : TgUpdate := { msg := some fixMsg }

mutual

/-- Fuel sufficient for `parseValF` on the serialization of a value: bounds
the depth of the parser's recursion tree. -/
def need : Json → Nat
  | .null => 1
  | .bool _ => 1
  | .num _ => 1
  | .str _ => 1
  | .arr xs => 1 + needItems xs
  | .obj kvs => 1 + needFields kvs

def needItems : List Json → Nat
  | [] => 1
  | x :: r => 1 + max (need x) (needItems r)

def needFields : List (Str × Json) → Nat
  | [] => 1
  | kv :: r => 1 + max (need kv.2) (needFields r)

end

/-! # Basic structural lemmas -/

theorem jsize_pos (v : Json) : 1 ≤ jsize v := by
  cases v <;> simp [jsize]

theorem jsize_le_jsizeList {x : Json} {xs : List Json} (h : x ∈ xs) : jsize x ≤ jsizeList xs := by
  induction xs with
  | nil => cases h
  | cons y ys ih =>
    rcases List.mem_cons.mp h with h | h
    · subst h; simp [jsizeList]; omega
    · have := ih h; simp [jsizeList]; omega

theorem jsize_le_jsizeFields {kv : Str × Json} {kvs : List (Str × Json)} (h : kv ∈ kvs) :
    jsize kv.2 ≤ jsizeFields kvs := by
  induction kvs with
  | nil => cases h
  | cons y ys ih =>
    rcases List.mem_cons.mp h with h | h
    · subst h; simp [jsizeFields]; omega
    · have := ih h; simp [jsizeFields]; omega

/-- Induction principle for the nested inductive `Json`. -/
theorem Json.indOn (P : Json → Prop)
    (hnull : P .null) (hbool : ∀ b, P (.bool b)) (hnum : ∀ n, P (.num n))
    (hstr : ∀ s, P (.str s))
    (harr : ∀ xs, (∀ x ∈ xs, P x) → P (.arr xs))
    (hobj : ∀ kvs, (∀ kv ∈ kvs, P kv.2) → P (.obj kvs)) :
    ∀ v, P v := by
  suffices h : ∀ n v, jsize v ≤ n → P v from fun v => h (jsize v) v le_rfl
  intro n
  induction n with
  | zero => intro v hv; have := jsize_pos v; omega
  | succ n ih =>
    intro v hv
    cases v with
    | null => exact hnull
    | bool b => exact hbool b
    | num m => exact hnum m
    | str s => exact hstr s
    | arr xs =>
      refine harr xs (fun x hx => ih x ?_)
      have h1 := jsize_le_jsizeList hx
      simp [jsize] at hv; omega
    | obj kvs =>
      refine hobj kvs (fun kv hkv => ih kv.2 ?_)
      have h1 := jsize_le_jsizeFields hkv
      simp [jsize] at hv; omega

/-! # Split / join lemmas for the line-delimited store -/

theorem splitCh_append_cons (sep : Nat) (l r : Str) (h : sep ∉ l) :
    splitCh sep (l ++ sep :: r) = l :: splitCh sep r := by
  induction l with
  | nil => simp [splitCh]
  | cons c cs ih =>
    have hc : c ≠ sep := fun e => h (by simp [e])
    have ih2 := ih (fun hm => h (List.mem_cons_of_mem _ hm))
    simp [splitCh, hc, ih2]

theorem splitCh_no_sep (sep : Nat) (l : Str) (h : sep ∉ l) : splitCh sep l = [l] := by
  induction l with
  | nil => rfl
  | cons c cs ih =>
    have hc : c ≠ sep := fun e => h (by simp [e])
    have ih2 := ih (fun hm => h (List.mem_cons_of_mem _ hm))
    simp [splitCh, hc, ih2]

theorem splitCh_joinSep (sep : Nat) (ls : List Str) (hne : ls ≠ [])
    (h : ∀ l ∈ ls, sep ∉ l) :
    splitCh sep (joinSep sep ls ++ [sep]) = ls ++ [[]] := by
  induction ls with
  | nil => exact absurd rfl hne
  | cons l ls ih =>
    cases ls with
    | nil =>
      have := splitCh_append_cons sep l [] (h l (by simp))
      simpa [joinSep, splitCh] using this
    | cons l2 ls2 =>
      have hl : sep ∉ l := h l (by simp)
      have hrec := ih (by simp) (fun x hx => h x (List.mem_cons_of_mem _ hx))
      calc splitCh sep (joinSep sep (l :: l2 :: ls2) ++ [sep])
          = splitCh sep (l ++ sep :: (joinSep sep (l2 :: ls2) ++ [sep])) := by
            simp [joinSep]
        _ = l :: splitCh sep (joinSep sep (l2 :: ls2) ++ [sep]) :=
            splitCh_append_cons sep l _ hl
        _ = l :: ((l2 :: ls2) ++ [[]]) := by rw [hrec]
        _ = (l :: l2 :: ls2) ++ [[]] := rfl

/-! # Decimal digit lemmas -/

theorem natDigits_ne_nil (n : Nat) : natDigits n ≠ [] := by
  rw [natDigits]; split <;> simp

theorem natDigits_digits (n : Nat) : ∀ c ∈ natDigits n, isDigitCh c = true := by
  induction n using Nat.strong_induction_on with
  | _ n ih =>
    rw [natDigits]
    split
    · next hlt =>
      intro c hc
      simp at hc
      simp [isDigitCh, hc]; omega
    · next hge =>
      intro c hc
      rcases List.mem_append.mp hc with h | h
      · exact ih (n / 10) (Nat.div_lt_self (by omega) (by omega)) c h
      · simp at h
        have : n % 10 < 10 := Nat.mod_lt _ (by omega)
        simp [isDigitCh, h]; omega

theorem natDigits_head (n : Nat) (hn : 1 ≤ n) :
    ∃ c cs, natDigits n = c :: cs ∧ 49 ≤ c ∧ c ≤ 57 := by
  induction n using Nat.strong_induction_on with
  | _ n ih =>
    rw [natDigits]
    split
    · next hlt => exact ⟨48 + n, [], rfl, by omega, by omega⟩
    · next hge =>
      have hd : 1 ≤ n / 10 := Nat.le_div_iff_mul_le (by omega) |>.mpr (by omega)
      obtain ⟨c, cs, heq, h1, h2⟩ :=
        ih (n / 10) (Nat.div_lt_self (by omega) (by omega)) hd
      exact ⟨c, cs ++ [48 + n % 10], by rw [heq]; rfl, h1, h2⟩

theorem parseDigits_natDigits (n : Nat) : ∀ (rest : Str) (acc : Nat),
    parseDigits (natDigits n ++ rest) acc
      = parseDigits rest (acc * 10 ^ (natDigits n).length + n) := by
  induction n using Nat.strong_induction_on with
  | _ n ih =>
    intro rest acc
    rw [natDigits]
    split
    · next hlt =>
      have hdig : isDigitCh (48 + n) = true := by simp [isDigitCh]; omega
      simp [parseDigits, hdig]
    · next hge =>
      have hdig : isDigitCh (48 + n % 10) = true := by
        have : n % 10 < 10 := Nat.mod_lt _ (by omega)
        simp [isDigitCh]; omega
      rw [List.append_assoc, List.cons_append,
        ih (n / 10) (Nat.div_lt_self (by omega) (by omega))]
      simp only [List.nil_append]
      rw [parseDigits]
      simp only [hdig, if_pos]
      have harith : (acc * 10 ^ (natDigits (n / 10)).length + n / 10) * 10 + (48 + n % 10 - 48)
          = acc * 10 ^ ((natDigits (n / 10)).length + 1) + n := by
        have hsub : 48 + n % 10 - 48 = n % 10 := by omega
        rw [hsub, pow_succ]
        calc (acc * 10 ^ (natDigits (n / 10)).length + n / 10) * 10 + n % 10
            = acc * (10 ^ (natDigits (n / 10)).length * 10) + (n / 10 * 10 + n % 10) := by ring
          _ = acc * (10 ^ (natDigits (n / 10)).length * 10) + n := by
              have := Nat.div_add_mod n 10
              omega
      rw [harith]
      congr 1
      simp

theorem parseDigits_stop (rest : Str) (acc : Nat)
    (hb : ∀ c, rest.head? = some c → isDigitCh c = false) :
    parseDigits rest acc = (acc, rest) := by
  cases rest with
  | nil => rfl
  | cons c r => simp [parseDigits, hb c rfl]

theorem parseNum_natDigits (n : Nat) (rest : Str)
    (hb : ∀ c, rest.head? = some c → isDigitCh c = false) :
    parseNum (natDigits n ++ rest) = some (n, rest) := by
  rcases Nat.eq_zero_or_pos n with h0 | hpos
  · subst h0
    have h48 : natDigits 0 = [48] := by rw [natDigits]; simp
    rw [h48]
    cases rest with
    | nil => rfl
    | cons d r =>
      have hd := hb d rfl
      have h1 : isDigitCh 48 = true := by decide
      simp [parseNum, h1, hd]
  · obtain ⟨c, cs, heq, h1, h2⟩ := natDigits_head n hpos
    have hdig : isDigitCh c = true := by simp [isDigitCh]; omega
    have hne : ¬(c = 48) := by omega
    have hfull : parseDigits (natDigits n ++ rest) 0 = (n, rest) := by
      rw [parseDigits_natDigits, parseDigits_stop rest _ hb]
      simp
    rw [heq] at hfull ⊢
    rw [List.cons_append] at hfull ⊢
    rw [parseDigits] at hfull
    simp only [hdig, if_pos] at hfull
    simp only [Nat.zero_mul, Nat.zero_add] at hfull
    simp [parseNum, hdig, hne, hfull]

/-! # String-literal escape round trip -/

theorem escapeStr_cons (c : Nat) (s : Str) : escapeStr (c :: s) = escChar c ++ escapeStr s := by
  simp [escapeStr]

theorem hexVal_hexDigitCh : ∀ m, m < 16 → hexVal (hexDigitCh m) = some m := by decide

theorem parseStrBody_escape (s : Str) : ∀ rest,
    parseStrBody (escapeStr s ++ 34 :: rest) = some (s, rest) := by
  induction s with
  | nil =>
    intro rest
    rw [escapeStr, List.map_nil, List.flatten_nil, List.nil_append, parseStrBody.eq_def]
    simp
  | cons c cs ih =>
    intro rest
    rw [escapeStr_cons, List.append_assoc]
    by_cases h34 : c = 34
    · subst h34; rw [show escChar 34 = [92, 34] from rfl]
      rw [List.cons_append, List.cons_append, parseStrBody.eq_def]
      simp [unescCh, ih rest]
    by_cases h92 : c = 92
    · subst h92; rw [show escChar 92 = [92, 92] from rfl]
      rw [List.cons_append, List.cons_append, parseStrBody.eq_def]
      simp [unescCh, ih rest]
    by_cases h8 : c = 8
    · subst h8; rw [show escChar 8 = [92, 98] from rfl]
      rw [List.cons_append, List.cons_append, parseStrBody.eq_def]
      simp [unescCh, ih rest]
    by_cases h9 : c = 9
    · subst h9; rw [show escChar 9 = [92, 116] from rfl]
      rw [List.cons_append, List.cons_append, parseStrBody.eq_def]
      simp [unescCh, ih rest]
    by_cases h10 : c = 10
    · subst h10; rw [show escChar 10 = [92, 110] from rfl]
      rw [List.cons_append, List.cons_append, parseStrBody.eq_def]
      simp [unescCh, ih rest]
    by_cases h12 : c = 12
    · subst h12; rw [show escChar 12 = [92, 102] from rfl]
      rw [List.cons_append, List.cons_append, parseStrBody.eq_def]
      simp [unescCh, ih rest]
    by_cases h13 : c = 13
    · subst h13; rw [show escChar 13 = [92, 114] from rfl]
      rw [List.cons_append, List.cons_append, parseStrBody.eq_def]
      simp [unescCh, ih rest]
    by_cases hlt : c < 32
    · have hd1 : c / 16 < 16 := by omega
      have hd2 : c % 16 < 16 := by omega
      have e1 : hexVal 48 = some 0 := by decide
      have e2 := hexVal_hexDigitCh _ hd1
      have e3 := hexVal_hexDigitCh _ hd2
      have hesc : escChar c = [92, 117, 48, 48, hexDigitCh (c / 16), hexDigitCh (c % 16)] := by
        unfold escChar
        simp [h34, h92, h8, h9, h10, h12, h13, hlt]
      rw [hesc]
      simp only [List.cons_append, List.nil_append]
      rw [parseStrBody.eq_def]
      simp [e1, e2, e3, ih rest]
      omega
    · have hesc : escChar c = [c] := by
        unfold escChar
        simp [h34, h92, h8, h9, h10, h12, h13, hlt]
      rw [hesc]
      simp only [List.cons_append, List.nil_append]
      rw [parseStrBody.eq_def]
      simp [h34, h92, hlt, ih rest]

/-! # Structural facts about `stringify` -/

theorem strLit_eq (s : Str) : strLit s = 34 :: escapeStr s ++ [34] := rfl

theorem stringify_ne_nil (v : Json) : stringify v ≠ [] := by
  cases v with
  | null => simp [stringify]
  | bool b => cases b <;> simp [stringify]
  | num n =>
    cases n with
    | ofNat m => simpa [stringify, intStr] using natDigits_ne_nil m
    | negSucc m => simp [stringify, intStr]
  | str s => simp [stringify, strLit]
  | arr xs => simp [stringify]
  | obj kvs => simp [stringify]

theorem natDigits_head_digit (n : Nat) :
    ∃ c cs, natDigits n = c :: cs ∧ 48 ≤ c ∧ c ≤ 57 := by
  obtain ⟨c, cs, heq⟩ := List.exists_cons_of_ne_nil (natDigits_ne_nil n)
  refine ⟨c, cs, heq, ?_, ?_⟩ <;>
  · have hmem : c ∈ natDigits n := by rw [heq]; simp
    have := natDigits_digits n c hmem
    simp [isDigitCh] at this
    omega

theorem stringify_head (v : Json) :
    ∃ c r, stringify v = c :: r ∧ isWsCh c = false ∧ c ≠ 93 ∧ c ≠ 125 ∧ c ≠ 44 := by
  cases v with
  | null => exact ⟨110, _, rfl, by decide, by decide, by decide, by decide⟩
  | bool b =>
    cases b with
    | true => exact ⟨116, _, rfl, by decide, by decide, by decide, by decide⟩
    | false => exact ⟨102, _, rfl, by decide, by decide, by decide, by decide⟩
  | num n =>
    cases n with
    | ofNat m =>
      obtain ⟨c, cs, heq, h1, h2⟩ := natDigits_head_digit m
      refine ⟨c, cs, by simp [stringify, intStr, heq], ?_, by omega, by omega, by omega⟩
      simp [isWsCh]
      omega
    | negSucc m => exact ⟨45, _, rfl, by decide, by decide, by decide, by decide⟩
  | str s => exact ⟨34, _, rfl, by decide, by decide, by decide, by decide⟩
  | arr xs => exact ⟨91, _, rfl, by decide, by decide, by decide, by decide⟩
  | obj kvs => exact ⟨123, _, rfl, by decide, by decide, by decide, by decide⟩

theorem hexDigitCh_ge (m : Nat) : 48 ≤ hexDigitCh m := by
  unfold hexDigitCh; split <;> omega

theorem escChar_no_newline (c : Nat) : 10 ∉ escChar c := by
  unfold escChar
  split_ifs with h1 h2 h3 h4 h5 h6 h7 h8 <;>
    simp_all <;>
    first
      | omega
      | (constructor
         · have := hexDigitCh_ge (c / 16); omega
         · have := hexDigitCh_ge (c % 16); omega)

theorem escapeStr_no_newline (s : Str) : 10 ∉ escapeStr s := by
  induction s with
  | nil => simp [escapeStr]
  | cons c cs ih =>
    rw [escapeStr_cons]
    simp [List.mem_append, ih]
    exact fun h => absurd h (escChar_no_newline c)

theorem strLit_no_newline (s : Str) : 10 ∉ strLit s := by
  rw [strLit_eq]
  simp [List.mem_append]
  exact fun h => absurd h (escapeStr_no_newline s)

theorem natDigits_no_newline (n : Nat) : 10 ∉ natDigits n := by
  intro h
  have := natDigits_digits n 10 h
  simp [isDigitCh] at this

theorem intStr_no_newline (n : Int) : 10 ∉ intStr n := by
  cases n with
  | ofNat m => simpa [intStr] using natDigits_no_newline m
  | negSucc m =>
    simp [intStr]
    exact fun h => absurd h (natDigits_no_newline (m + 1))

theorem stringify_no_newline : ∀ v : Json, 10 ∉ stringify v := by
  have items : ∀ (ys : List Json), (∀ x ∈ ys, 10 ∉ stringify x) → 10 ∉ stringifyItems ys := by
    intro ys
    induction ys with
    | nil => simp [stringifyItems]
    | cons y ys ih =>
      intro hm
      cases ys with
      | nil => simpa [stringifyItems] using hm y (by simp)
      | cons z zs =>
        have h1 := hm y (by simp)
        have h2 := ih (fun x hx => hm x (List.mem_cons_of_mem _ hx))
        intro hmem
        rw [stringifyItems] at hmem
        rcases List.mem_append.mp hmem with h | h
        · exact h1 h
        · rcases List.mem_cons.mp h with h | h
          · exact absurd h (by decide)
          · exact h2 h
  have fields : ∀ (ys : List (Str × Json)), (∀ kv ∈ ys, 10 ∉ stringify kv.2) →
      10 ∉ stringifyFields ys := by
    intro ys
    induction ys with
    | nil => simp [stringifyFields]
    | cons y ys ih =>
      intro hm
      cases ys with
      | nil =>
        have h1 := hm y (by simp)
        have h2 := strLit_no_newline y.1
        intro hmem
        rw [stringifyFields] at hmem
        rcases List.mem_append.mp hmem with h | h
        · exact h2 h
        · rcases List.mem_cons.mp h with h | h
          · exact absurd h (by decide)
          · exact h1 h
      | cons z zs =>
        have h1 := hm y (by simp)
        have h2 := ih (fun x hx => hm x (List.mem_cons_of_mem _ hx))
        have h3 := strLit_no_newline y.1
        intro hmem
        rw [stringifyFields] at hmem
        rcases List.mem_append.mp hmem with h | h
        · rcases List.mem_append.mp h with h | h
          · exact h3 h
          · rcases List.mem_cons.mp h with h | h
            · exact absurd h (by decide)
            · exact h1 h
        · rcases List.mem_cons.mp h with h | h
          · exact absurd h (by decide)
          · exact h2 h
  intro v
  induction v using Json.indOn with
  | hnull => simp [stringify]
  | hbool b => cases b <;> simp [stringify]
  | hnum n => simpa [stringify] using intStr_no_newline n
  | hstr s => simpa [stringify] using strLit_no_newline s
  | harr xs hmem =>
    have hi := items xs hmem
    intro hmem10
    rw [stringify] at hmem10
    rcases List.mem_cons.mp hmem10 with h | h
    · exact absurd h (by decide)
    · rcases List.mem_append.mp h with h | h
      · exact hi h
      · exact absurd h (by decide)
  | hobj kvs hmem =>
    have hi := fields kvs hmem
    intro hmem10
    rw [stringify] at hmem10
    rcases List.mem_cons.mp hmem10 with h | h
    · exact absurd h (by decide)
    · rcases List.mem_append.mp h with h | h
      · exact hi h
      · exact absurd h (by decide)

/-! # Whitespace-skipping facts -/

theorem skipWs_cons_not_ws {c : Nat} (r : Str) (h : isWsCh c = false) :
    skipWs (c :: r) = c :: r := by simp [skipWs, h]

/-! # Round trip: parsing a serialized value -/

theorem need_pos (v : Json) : 1 ≤ need v := by
  cases v <;> simp [need]

theorem needItems_pos (ys : List Json) : 1 ≤ needItems ys := by
  cases ys <;> simp [needItems]

theorem needFields_pos (ys : List (Str × Json)) : 1 ≤ needFields ys := by
  cases ys <;> simp [needFields]

theorem parseValF_succ (f : Nat) (input : Str) :
    parseValF (f + 1) input =
      (match skipWs input with
      | [] => none
      | c :: rest =>
        if c = 110 then (expectLit [117, 108, 108] rest).map (fun r => (.null, r))
        else if c = 116 then (expectLit [114, 117, 101] rest).map (fun r => (.bool true, r))
        else if c = 102 then (expectLit [97, 108, 115, 101] rest).map (fun r => (.bool false, r))
        else if c = 34 then (parseStrBody rest).map (fun p => (.str p.1, p.2))
        else if c = 91 then
          match skipWs rest with
          | [] => none
          | d :: r2 =>
            if d = 93 then some (.arr [], r2)
            else (parseArrItemsF f (d :: r2)).map (fun p => (.arr p.1, p.2))
        else if c = 123 then
          match skipWs rest with
          | [] => none
          | d :: r2 =>
            if d = 125 then some (.obj [], r2)
            else (parseObjItemsF f (d :: r2)).map (fun p => (.obj p.1, p.2))
        else if c = 45 then (parseNum rest).map (fun p => (.num (-(p.1 : Int)), p.2))
        else if isDigitCh c then (parseNum (c :: rest)).map (fun p => (.num (p.1 : Int), p.2))
        else none) := rfl

theorem parseArrItemsF_succ (f : Nat) (input : Str) :
    parseArrItemsF (f + 1) input =
      (do
        let (v, r) ← parseValF f input
        match skipWs r with
        | [] => none
        | c :: r2 =>
          if c = 44 then
            let (xs, r3) ← parseArrItemsF f r2
            some (v :: xs, r3)
          else if c = 93 then some ([v], r2)
          else none) := rfl

theorem parseObjItemsF_succ (f : Nat) (input : Str) :
    parseObjItemsF (f + 1) input =
      (match skipWs input with
      | [] => none
      | c :: rest =>
        if c = 34 then do
          let (k, r1) ← parseStrBody rest
          match skipWs r1 with
          | [] => none
          | d :: r2 =>
            if d = 58 then do
              let (v, r3) ← parseValF f r2
              match skipWs r3 with
              | [] => none
              | e :: r4 =>
                if e = 44 then
                  let (kvs, r5) ← parseObjItemsF f r4
                  some (objCons k v kvs, r5)
                else if e = 125 then some ([(k, v)], r4)
                else none
            else none
        else none) := rfl

theorem parseArrItemsF_stringify (ys : List Json)
    (hP : ∀ x ∈ ys, wfB x = true → ∀ f rest, need x ≤ f →
      (∀ c, rest.head? = some c → isDigitCh c = false) →
      parseValF f (stringify x ++ rest) = some (x, rest))
    (hwf : wfListB ys = true) (hne : ys ≠ []) :
    ∀ f rest, needItems ys ≤ f →
      parseArrItemsF f (stringifyItems ys ++ 93 :: rest) = some (ys, rest) := by
  induction ys with
  | nil => exact absurd rfl hne
  | cons x ys ih =>
    intro f rest hf
    have hwx : wfB x = true := by
      rw [wfListB] at hwf
      exact (Bool.and_eq_true_iff.mp hwf).1
    have hwys : wfListB ys = true := by
      rw [wfListB] at hwf
      exact (Bool.and_eq_true_iff.mp hwf).2
    rw [needItems] at hf
    have hmx := Nat.le_max_left (need x) (needItems ys)
    have hmy := Nat.le_max_right (need x) (needItems ys)
    cases f with
    | zero => omega
    | succ f =>
      have hfx : need x ≤ f := by omega
      rw [parseArrItemsF_succ]
      cases ys with
      | nil =>
        have hval := hP x (by simp) hwx f (93 :: rest) hfx
          (fun c hc => by cases hc; decide)
        rw [stringifyItems, hval]
        simp [skipWs, isWsCh]
      | cons y ys2 =>
        have hfy : needItems (y :: ys2) ≤ f := by omega
        have hval := hP x (by simp) hwx f
          (44 :: (stringifyItems (y :: ys2) ++ 93 :: rest)) hfx
          (fun c hc => by cases hc; decide)
        have hrec := ih (fun z hz => hP z (List.mem_cons_of_mem _ hz)) hwys
          (by simp) f rest hfy
        rw [stringifyItems, List.append_assoc, List.cons_append, hval]
        simp only [Option.bind_eq_bind, Option.some_bind]
        rw [skipWs_cons_not_ws _ (by decide)]
        simp [hrec]

theorem parseObjItemsF_stringify (ys : List (Str × Json))
    (hP : ∀ kv ∈ ys, wfB kv.2 = true → ∀ f rest, need kv.2 ≤ f →
      (∀ c, rest.head? = some c → isDigitCh c = false) →
      parseValF f (stringify kv.2 ++ rest) = some (kv.2, rest))
    (hwf : wfFieldsB ys = true) (hnd : keysNodup ys = true) (hne : ys ≠ []) :
    ∀ f rest, needFields ys ≤ f →
      parseObjItemsF f (stringifyFields ys ++ 125 :: rest) = some (ys, rest) := by
  induction ys with
  | nil => exact absurd rfl hne
  | cons kv ys ih =>
    obtain ⟨k, v⟩ := kv
    intro f rest hf
    have hwx : wfB v = true := by
      rw [wfFieldsB] at hwf
      exact (Bool.and_eq_true_iff.mp hwf).1
    have hwys : wfFieldsB ys = true := by
      rw [wfFieldsB] at hwf
      exact (Bool.and_eq_true_iff.mp hwf).2
    have hlk : lookupKey k ys = none := by
      rw [keysNodup] at hnd
      have := (Bool.and_eq_true_iff.mp hnd).1
      simpa [Option.isNone_iff_eq_none] using this
    have hndys : keysNodup ys = true := by
      rw [keysNodup] at hnd
      exact (Bool.and_eq_true_iff.mp hnd).2
    have hf2 : 1 + max (need v) (needFields ys) ≤ f := hf
    have hmx := Nat.le_max_left (need v) (needFields ys)
    have hmy := Nat.le_max_right (need v) (needFields ys)
    cases f with
    | zero => omega
    | succ f =>
      have hfx : need v ≤ f := by omega
      rw [parseObjItemsF_succ]
      cases ys with
      | nil =>
        have hval : parseValF f (stringify v ++ 125 :: rest) = some (v, 125 :: rest) :=
          hP (k, v) (by simp) hwx f (125 :: rest) hfx
            (fun c hc => by cases hc; decide)
        rw [stringifyFields, strLit_eq]
        simp only [List.cons_append, List.append_assoc, List.nil_append]
        rw [skipWs_cons_not_ws _ (by decide)]
        simp [skipWs, isWsCh, parseStrBody_escape k (58 :: (stringify v ++ 125 :: rest)), hval]
      | cons kv2 ys2 =>
        have hfy : needFields (kv2 :: ys2) ≤ f := by omega
        have hval : parseValF f
            (stringify v ++ 44 :: (stringifyFields (kv2 :: ys2) ++ 125 :: rest))
            = some (v, 44 :: (stringifyFields (kv2 :: ys2) ++ 125 :: rest)) :=
          hP (k, v) (by simp) hwx f
            (44 :: (stringifyFields (kv2 :: ys2) ++ 125 :: rest)) hfx
            (fun c hc => by cases hc; decide)
        have hrec := ih (fun z hz => hP z (List.mem_cons_of_mem _ hz)) hwys hndys
          (by simp) f rest hfy
        rw [stringifyFields, strLit_eq]
        simp only [List.cons_append, List.append_assoc, List.nil_append]
        rw [skipWs_cons_not_ws _ (by decide)]
        simp [skipWs, isWsCh,
          parseStrBody_escape k
            (58 :: (stringify v ++ 44 :: (stringifyFields (kv2 :: ys2) ++ 125 :: rest))),
          hval, hrec, objCons, hlk]

theorem parseValF_stringify : ∀ v : Json, wfB v = true → ∀ f rest, need v ≤ f →
    (∀ c, rest.head? = some c → isDigitCh c = false) →
    parseValF f (stringify v ++ rest) = some (v, rest) := by
  intro v
  induction v using Json.indOn with
  | hnull =>
    intro _ f rest hf hb
    cases f with
    | zero => simp [need] at hf
    | succ f =>
      rw [stringify, parseValF_succ]
      simp [skipWs, isWsCh, expectLit]
  | hbool b =>
    intro _ f rest hf hb
    cases f with
    | zero => simp [need] at hf
    | succ f =>
      cases b <;>
        (rw [stringify, parseValF_succ]; simp [skipWs, isWsCh, expectLit])
  | hnum n =>
    intro _ f rest hf hb
    cases f with
    | zero => simp [need] at hf
    | succ f =>
      cases n with
      | ofNat m =>
        obtain ⟨c, cs, heq, h48, h57⟩ := natDigits_head_digit m
        have hnum := parseNum_natDigits m rest hb
        have hws : isWsCh c = false := by simp [isWsCh]; omega
        have hdig : isDigitCh c = true := by simp [isDigitCh]; omega
        rw [stringify, intStr, heq, List.cons_append, parseValF_succ]
        rw [skipWs_cons_not_ws _ hws]
        rw [heq, List.cons_append] at hnum
        simp only
        rw [if_neg (by omega), if_neg (by omega), if_neg (by omega), if_neg (by omega),
          if_neg (by omega), if_neg (by omega), if_neg (by omega), if_pos hdig, hnum]
        simp
      | negSucc m =>
        have hnum := parseNum_natDigits (m + 1) rest hb
        rw [stringify, intStr, List.cons_append, parseValF_succ]
        rw [skipWs_cons_not_ws _ (by decide)]
        simp [hnum, Int.negSucc_eq]
  | hstr s =>
    intro _ f rest hf hb
    cases f with
    | zero => simp [need] at hf
    | succ f =>
      rw [stringify, strLit_eq]
      simp only [List.cons_append, List.append_assoc, List.singleton_append]
      rw [parseValF_succ, skipWs_cons_not_ws _ (by decide)]
      simp [parseStrBody_escape s rest]
  | harr xs hmem =>
    intro hwf f rest hf hb
    cases f with
    | zero =>
      have := needItems_pos xs
      rw [need] at hf
      omega
    | succ f =>
      rw [stringify]
      simp only [List.cons_append, List.append_assoc, List.singleton_append]
      rw [parseValF_succ, skipWs_cons_not_ws _ (by decide)]
      show (match skipWs (stringifyItems xs ++ 93 :: rest) with
        | [] => none
        | d :: r2 =>
          if d = 93 then some (Json.arr [], r2)
          else (parseArrItemsF f (d :: r2)).map (fun p => (Json.arr p.1, p.2)))
        = some (Json.arr xs, rest)
      cases xs with
      | nil =>
        rw [stringifyItems, List.nil_append, skipWs_cons_not_ws _ (by decide)]
        simp
      | cons x xs2 =>
        have hwl : wfListB (x :: xs2) = true := by simpa [wfB] using hwf
        have hfi : needItems (x :: xs2) ≤ f := by
          rw [need] at hf; omega
        obtain ⟨c0, r0, heq0, hws0, h93, _, _⟩ := stringify_head x
        have hrec := parseArrItemsF_stringify (x :: xs2) hmem hwl (by simp) f rest hfi
        have hex : ∃ T, stringifyItems (x :: xs2) ++ 93 :: rest = c0 :: T := by
          cases xs2 with
          | nil => rw [stringifyItems, heq0]; exact ⟨_, rfl⟩
          | cons y ys => rw [stringifyItems, heq0]; exact ⟨_, rfl⟩
        obtain ⟨T, hT⟩ := hex
        rw [hT, skipWs_cons_not_ws _ hws0]
        show (if c0 = 93 then some (Json.arr [], T)
          else (parseArrItemsF f (c0 :: T)).map (fun p => (Json.arr p.1, p.2)))
          = some (Json.arr (x :: xs2), rest)
        rw [if_neg h93, ← hT, hrec]
        rfl
  | hobj kvs hmem =>
    intro hwf f rest hf hb
    cases f with
    | zero =>
      have := needFields_pos kvs
      rw [need] at hf
      omega
    | succ f =>
      rw [stringify]
      simp only [List.cons_append, List.append_assoc, List.singleton_append]
      rw [parseValF_succ, skipWs_cons_not_ws _ (by decide)]
      show (match skipWs (stringifyFields kvs ++ 125 :: rest) with
        | [] => none
        | d :: r2 =>
          if d = 125 then some (Json.obj [], r2)
          else (parseObjItemsF f (d :: r2)).map (fun p => (Json.obj p.1, p.2)))
        = some (Json.obj kvs, rest)
      cases kvs with
      | nil =>
        rw [stringifyFields, List.nil_append, skipWs_cons_not_ws _ (by decide)]
        simp
      | cons kv kvs2 =>
        have hnd : keysNodup (kv :: kvs2) = true := by
          rw [wfB] at hwf
          exact (Bool.and_eq_true_iff.mp hwf).1
        have hwl : wfFieldsB (kv :: kvs2) = true := by
          rw [wfB] at hwf
          exact (Bool.and_eq_true_iff.mp hwf).2
        have hfi : needFields (kv :: kvs2) ≤ f := by
          rw [need] at hf; omega
        have hrec := parseObjItemsF_stringify (kv :: kvs2) hmem hwl hnd (by simp) f rest hfi
        have hex : ∃ T, stringifyFields (kv :: kvs2) ++ 125 :: rest = 34 :: T := by
          cases kvs2 with
          | nil => rw [stringifyFields, strLit_eq]; exact ⟨_, rfl⟩
          | cons kv2 kvs3 => rw [stringifyFields, strLit_eq]; exact ⟨_, rfl⟩
        obtain ⟨T, hT⟩ := hex
        rw [hT, skipWs_cons_not_ws _ (by decide)]
        show (if (34 : Nat) = 125 then some (Json.obj [], T)
          else (parseObjItemsF f (34 :: T)).map (fun p => (Json.obj p.1, p.2)))
          = some (Json.obj (kv :: kvs2), rest)
        rw [if_neg (by decide), ← hT, hrec]
        rfl

theorem needItems_le (ys : List Json)
    (hP : ∀ x ∈ ys, need x ≤ (stringify x).length + 1) :
    needItems ys ≤ (stringifyItems ys).length + 2 := by
  induction ys with
  | nil => simp [needItems, stringifyItems]
  | cons x ys ih =>
    have hx := hP x (by simp)
    cases ys with
    | nil =>
      have h1 : needItems ([] : List Json) = 1 := rfl
      rw [needItems, h1, stringifyItems]
      have hmax : max (need x) 1 ≤ (stringify x).length + 1 :=
        Nat.max_le.mpr ⟨hx, by omega⟩
      omega
    | cons y ys2 =>
      have hr := ih (fun z hz => hP z (List.mem_cons_of_mem _ hz))
      rw [needItems, stringifyItems]
      simp only [List.length_append, List.length_cons]
      have hmax : max (need x) (needItems (y :: ys2))
          ≤ (stringify x).length + (stringifyItems (y :: ys2)).length + 2 :=
        Nat.max_le.mpr ⟨by omega, by omega⟩
      omega

theorem needFields_le (ys : List (Str × Json))
    (hP : ∀ kv ∈ ys, need kv.2 ≤ (stringify kv.2).length + 1) :
    needFields ys ≤ (stringifyFields ys).length + 2 := by
  induction ys with
  | nil => simp [needFields, stringifyFields]
  | cons kv ys ih =>
    obtain ⟨k, v⟩ := kv
    have hx : need v ≤ (stringify v).length + 1 := hP (k, v) (by simp)
    cases ys with
    | nil =>
      have h1 : needFields ([] : List (Str × Json)) = 1 := rfl
      rw [needFields, h1, stringifyFields]
      simp only [List.length_append, List.length_cons]
      have hmax : max (need v) 1 ≤ (stringify v).length + 1 :=
        Nat.max_le.mpr ⟨hx, by omega⟩
      omega
    | cons kv2 ys2 =>
      have hr := ih (fun z hz => hP z (List.mem_cons_of_mem _ hz))
      rw [needFields, stringifyFields]
      simp only [List.length_append, List.length_cons]
      have hmax : max (need v) (needFields (kv2 :: ys2))
          ≤ (stringify v).length + (stringifyFields (kv2 :: ys2)).length + 2 :=
        Nat.max_le.mpr ⟨by omega, by omega⟩
      omega

theorem need_le (v : Json) : need v ≤ (stringify v).length + 1 := by
  induction v using Json.indOn with
  | hnull => simp [need, stringify]
  | hbool b => cases b <;> simp [need, stringify]
  | hnum n => rw [need]; omega
  | hstr s => simp [need, stringify]
  | harr xs hmem =>
    have := needItems_le xs hmem
    rw [need, stringify]
    simp only [List.length_cons, List.length_append]
    omega
  | hobj kvs hmem =>
    have := needFields_le kvs hmem
    rw [need, stringify]
    simp only [List.length_cons, List.length_append]
    omega

/-- The round trip at the level of one serialized line: `JSON.parse` inverts
`JSON.stringify` on every well-formed value. -/
theorem parseJson_stringify (v : Json) (hwf : wfB v = true) :
    parseJson (stringify v) = some v := by
  have h1 := parseValF_stringify v hwf ((stringify v).length + 1) []
    (by have := need_le v; omega) (by intro c hc; cases hc)
  rw [List.append_nil] at h1
  unfold parseJson
  rw [h1]
  simp [skipWs]

/-! # Association-list lookup, update, and spread lemmas -/

theorem lookupKey_filter_none {k : Str} {r : List (Str × Json)}
    (p : Str × Json → Bool) (h : lookupKey k r = none) :
    lookupKey k (r.filter p) = none := by
  induction r with
  | nil => rfl
  | cons kv r ih =>
    rw [lookupKey] at h
    by_cases he : kv.1 = k
    · simp [he] at h
    · simp only [he, if_neg] at h
      rw [List.filter_cons]
      rcases hp : p kv with _ | _
      · simp only [Bool.false_eq_true, if_neg]
        exact ih h
      · simp only [if_pos]
        rw [lookupKey]
        simp only [he, if_neg]
        exact ih h

theorem lookupKey_filter_ne_self (k : Str) (r : List (Str × Json)) :
    lookupKey k (r.filter (fun kv => kv.1 ≠ k)) = none := by
  induction r with
  | nil => rfl
  | cons kv r ih =>
    obtain ⟨k0, v0⟩ := kv
    rw [List.filter_cons]
    by_cases he : k0 = k
    · rw [if_neg (by simp [he])]
      exact ih
    · rw [if_pos (by simp [he]), lookupKey, if_neg he]
      exact ih

theorem keysNodup_filter {r : List (Str × Json)} (p : Str × Json → Bool)
    (h : keysNodup r = true) : keysNodup (r.filter p) = true := by
  induction r with
  | nil => rfl
  | cons kv r ih =>
    obtain ⟨k0, v0⟩ := kv
    rw [keysNodup] at h
    obtain ⟨h1, h2⟩ := Bool.and_eq_true_iff.mp h
    rw [List.filter_cons]
    rcases hp : p (k0, v0) with _ | _
    · simp only [Bool.false_eq_true, if_neg]
      exact ih h2
    · simp only [if_pos]
      rw [keysNodup]
      refine Bool.and_eq_true_iff.mpr ⟨?_, ih h2⟩
      have := lookupKey_filter_none p (Option.isNone_iff_eq_none.mp h1)
      simp [this]

theorem lookupKey_wf {k : Str} {r : List (Str × Json)} {w : Json}
    (hwf : wfFieldsB r = true) (h : lookupKey k r = some w) : wfB w = true := by
  induction r with
  | nil => simp [lookupKey] at h
  | cons kv r ih =>
    rw [wfFieldsB] at hwf
    obtain ⟨h1, h2⟩ := Bool.and_eq_true_iff.mp hwf
    rw [lookupKey] at h
    by_cases he : kv.1 = k
    · simp only [he, if_pos] at h
      cases h
      exact h1
    · simp only [he, if_neg] at h
      exact ih h2 h

theorem wfFieldsB_filter {r : List (Str × Json)} (p : Str × Json → Bool)
    (h : wfFieldsB r = true) : wfFieldsB (r.filter p) = true := by
  induction r with
  | nil => rfl
  | cons kv r ih =>
    rw [wfFieldsB] at h
    obtain ⟨h1, h2⟩ := Bool.and_eq_true_iff.mp h
    rw [List.filter_cons]
    rcases hp : p kv with _ | _
    · simp only [Bool.false_eq_true, if_neg]
      exact ih h2
    · simp only [if_pos]
      rw [wfFieldsB]
      exact Bool.and_eq_true_iff.mpr ⟨h1, ih h2⟩

theorem objCons_wf {k : Str} {v : Json} {kvs : List (Str × Json)}
    (hv : wfB v = true) (hnd : keysNodup kvs = true) (hwf : wfFieldsB kvs = true) :
    keysNodup (objCons k v kvs) = true ∧ wfFieldsB (objCons k v kvs) = true := by
  rw [objCons]
  rcases hl : lookupKey k kvs with _ | w
  · constructor
    · rw [keysNodup]
      simp [hl, hnd]
    · rw [wfFieldsB]
      exact Bool.and_eq_true_iff.mpr ⟨hv, hwf⟩
  · constructor
    · rw [keysNodup]
      refine Bool.and_eq_true_iff.mpr ⟨?_, keysNodup_filter _ hnd⟩
      rw [lookupKey_filter_ne_self k kvs]
      rfl
    · rw [wfFieldsB]
      exact Bool.and_eq_true_iff.mpr ⟨lookupKey_wf hwf hl, wfFieldsB_filter _ hwf⟩

/-! # The parser only produces well-formed values -/

theorem parse_wf : ∀ f : Nat,
    (∀ s v r, parseValF f s = some (v, r) → wfB v = true)
    ∧ (∀ s xs r, parseArrItemsF f s = some (xs, r) → wfListB xs = true)
    ∧ (∀ s kvs r, parseObjItemsF f s = some (kvs, r) →
        keysNodup kvs = true ∧ wfFieldsB kvs = true) := by
  intro f
  induction f with
  | zero =>
    refine ⟨?_, ?_, ?_⟩ <;> intro s a r h <;> exact Option.noConfusion h
  | succ f ih =>
    obtain ⟨ih1, ih2, ih3⟩ := ih
    refine ⟨?_, ?_, ?_⟩
    · intro s v r h
      rw [parseValF_succ] at h
      split at h
      · exact Option.noConfusion h
      · split_ifs at h with h110 h116 h102 h34 h91 h123 h45 hdig
        · obtain ⟨a, ha, hb⟩ := Option.map_eq_some'.mp h
          cases hb; rfl
        · obtain ⟨a, ha, hb⟩ := Option.map_eq_some'.mp h
          cases hb; rfl
        · obtain ⟨a, ha, hb⟩ := Option.map_eq_some'.mp h
          cases hb; rfl
        · obtain ⟨a, ha, hb⟩ := Option.map_eq_some'.mp h
          cases hb; rfl
        · split at h
          · exact Option.noConfusion h
          · split_ifs at h with hd
            · cases h; rfl
            · obtain ⟨a, ha, hb⟩ := Option.map_eq_some'.mp h
              cases hb
              rw [wfB]
              exact ih2 _ _ _ ha
        · split at h
          · exact Option.noConfusion h
          · split_ifs at h with hd
            · cases h; rfl
            · obtain ⟨a, ha, hb⟩ := Option.map_eq_some'.mp h
              cases hb
              have hw := ih3 _ _ _ ha
              rw [wfB]
              exact Bool.and_eq_true_iff.mpr ⟨hw.1, hw.2⟩
        · obtain ⟨a, ha, hb⟩ := Option.map_eq_some'.mp h
          cases hb; rfl
        · obtain ⟨a, ha, hb⟩ := Option.map_eq_some'.mp h
          cases hb; rfl
    · intro s xs r h
      rw [parseArrItemsF_succ] at h
      simp only [Option.bind_eq_bind, Option.bind_eq_some] at h
      obtain ⟨⟨v, r1⟩, hv, h⟩ := h
      have hwv := ih1 _ _ _ hv
      split at h
      · exact Option.noConfusion h
      · split_ifs at h with hc hc2
        · simp only [Option.bind_eq_some] at h
          obtain ⟨⟨xs2, r3⟩, hx, h⟩ := h
          cases h
          have hw := ih2 _ _ _ hx
          rw [wfListB]
          exact Bool.and_eq_true_iff.mpr ⟨hwv, hw⟩
        · cases h
          rw [wfListB]
          simp [hwv, wfListB]
    · intro s kvs r h
      rw [parseObjItemsF_succ] at h
      split at h
      · exact Option.noConfusion h
      · split_ifs at h with hc
        · simp only [Option.bind_eq_bind, Option.bind_eq_some] at h
          obtain ⟨⟨k, r1⟩, hk, h⟩ := h
          split at h
          · exact Option.noConfusion h
          · split_ifs at h with hd
            · simp only [Option.bind_eq_some] at h
              obtain ⟨⟨v, r3⟩, hv, h⟩ := h
              have hwv := ih1 _ _ _ hv
              split at h
              · exact Option.noConfusion h
              · split_ifs at h with he he2
                · simp only [Option.bind_eq_some] at h
                  obtain ⟨⟨kvs2, r5⟩, hx, h⟩ := h
                  cases h
                  have hw := ih3 _ _ _ hx
                  exact objCons_wf hwv hw.1 hw.2
                · cases h
                  constructor
                  · rfl
                  · rw [wfFieldsB]
                    simp [hwv, wfFieldsB]

theorem loadItemsStr_wf (content : Str) : ∀ it ∈ loadItemsStr content, wfB it = true := by
  intro it hit
  rw [loadItemsStr] at hit
  obtain ⟨l, hl, hparse⟩ := List.mem_filterMap.mp hit
  rcases hp : parseJson l with _ | v
  · simp [hp] at hparse
  · simp [hp] at hparse
    obtain ⟨-, hv⟩ := hparse
    subst hv
    rw [parseJson] at hp
    rcases hq : parseValF (l.length + 1) l with _ | ⟨v2, r⟩
    · simp [hq] at hp
    · simp [hq] at hp
      obtain ⟨h1, h2⟩ := hp
      subst h2
      exact (parse_wf (l.length + 1)).1 _ _ _ hq

/-! # Field update lemmas (JavaScript property writes) -/

theorem lookupKey_setKeyL_self (k : Str) (v : Json) (l : List (Str × Json)) :
    lookupKey k (setKeyL k v l) = some v := by
  induction l with
  | nil => simp [setKeyL, lookupKey]
  | cons kv l ih =>
    by_cases he : kv.1 = k
    · obtain ⟨k0, v0⟩ := kv
      simp at he
      subst he
      simp [setKeyL, lookupKey]
    · obtain ⟨k0, v0⟩ := kv
      simp at he
      simp [setKeyL, he, lookupKey, ih]

theorem lookupKey_setKeyL_ne {k k2 : Str} (h : k2 ≠ k) (v : Json) (l : List (Str × Json)) :
    lookupKey k (setKeyL k2 v l) = lookupKey k l := by
  induction l with
  | nil => simp [setKeyL, lookupKey, h]
  | cons kv l ih =>
    obtain ⟨k0, v0⟩ := kv
    by_cases he : k0 = k2
    · subst he
      simp [setKeyL, lookupKey, h]
    · simp [setKeyL, he, lookupKey, ih]

theorem setKeyL_keysNodup {k : Str} {v : Json} {l : List (Str × Json)}
    (h : keysNodup l = true) : keysNodup (setKeyL k v l) = true := by
  induction l with
  | nil => simp [setKeyL, keysNodup, lookupKey]
  | cons kv l ih =>
    obtain ⟨k0, v0⟩ := kv
    rw [keysNodup] at h
    obtain ⟨h1, h2⟩ := Bool.and_eq_true_iff.mp h
    by_cases he : k0 = k
    · subst he
      rw [setKeyL, if_pos rfl, keysNodup]
      exact Bool.and_eq_true_iff.mpr ⟨h1, h2⟩
    · rw [setKeyL, if_neg he, keysNodup]
      refine Bool.and_eq_true_iff.mpr ⟨?_, ih h2⟩
      have hne : k ≠ k0 := fun e => he e.symm
      rw [lookupKey_setKeyL_ne hne v l]
      exact h1

theorem setKeyL_wfFields {k : Str} {v : Json} {l : List (Str × Json)}
    (hv : wfB v = true) (h : wfFieldsB l = true) : wfFieldsB (setKeyL k v l) = true := by
  induction l with
  | nil => simp [setKeyL, wfFieldsB, hv]
  | cons kv l ih =>
    obtain ⟨k0, v0⟩ := kv
    rw [wfFieldsB] at h
    obtain ⟨h1, h2⟩ := Bool.and_eq_true_iff.mp h
    by_cases he : k0 = k
    · subst he
      rw [setKeyL, if_pos rfl, wfFieldsB]
      exact Bool.and_eq_true_iff.mpr ⟨hv, h2⟩
    · rw [setKeyL, if_neg he, wfFieldsB]
      exact Bool.and_eq_true_iff.mpr ⟨h1, ih h2⟩

theorem setField_wf {it v : Json} (k : Str) (hit : wfB it = true) (hv : wfB v = true) :
    wfB (setField it k v) = true := by
  cases it with
  | obj kvs =>
    rw [wfB] at hit
    obtain ⟨h1, h2⟩ := Bool.and_eq_true_iff.mp hit
    rw [setField, wfB]
    exact Bool.and_eq_true_iff.mpr ⟨setKeyL_keysNodup h1, setKeyL_wfFields hv h2⟩
  | null => exact hit
  | bool b => exact hit
  | num n => exact hit
  | str s => exact hit
  | arr xs => exact hit

/-! # Store-level lemmas: splitting and joining the saved file -/

theorem splitNl_saveItems (items : List Json) (hne : items ≠ []) :
    splitNl (saveItems items) = items.map stringify ++ [[]] := by
  rw [saveItems, joinNl, splitNl]
  apply splitCh_joinSep
  · simpa using hne
  · intro l hl
    obtain ⟨it, hit, heq⟩ := List.mem_map.mp hl
    rw [← heq]
    exact stringify_no_newline it

theorem isObjB_truthy {it : Json} (h : isObjB it = true) : jsTruthy it = true := by
  cases it <;> first | rfl | simp [isObjB] at h

/-- The per-line load step inverts serialization on well-formed truthy values. -/
theorem loadStep_stringify (it : Json) (hwf : wfB it = true) (htr : jsTruthy it = true) :
    (match parseJson (stringify it) with
      | some v => if jsTruthy v = true then some v else none
      | none => none) = some it := by
  rw [parseJson_stringify it hwf]
  simp [htr]

theorem filterMap_self {α : Type} (F : α → Option α) :
    ∀ l : List α, (∀ x ∈ l, F x = some x) → l.filterMap F = l := by
  intro l
  induction l with
  | nil => intro _; rfl
  | cons x l ih =>
    intro h
    rw [List.filterMap_cons, h x (by simp), ih (fun y hy => h y (List.mem_cons_of_mem _ hy))]

/-- Load-after-save round trip (the store level of C8). -/
theorem loadItems_saveItems (items : List Json)
    (h : ∀ it ∈ items, isObjB it = true ∧ wfB it = true) :
    loadItems (some (saveItems items)) = items := by
  cases hi : items with
  | nil => rfl
  | cons it0 rest =>
    rw [← hi]
    have hne : items ≠ [] := by rw [hi]; simp
    rw [loadItems, loadItemsStr, splitNl_saveItems items hne]
    rw [List.filter_append]
    have hfil : (items.map stringify).filter (fun l => !l.isEmpty) = items.map stringify := by
      apply List.filter_eq_self.mpr
      intro l hl
      obtain ⟨it, hit, heq⟩ := List.mem_map.mp hl
      simp [← heq, stringify_ne_nil it]
    have hfil2 : ([[]] : List Str).filter (fun l => !l.isEmpty) = [] := rfl
    rw [hfil, hfil2, List.append_nil, List.filterMap_map]
    apply filterMap_self
    intro it hit
    exact loadStep_stringify it (h it hit).2 (isObjB_truthy (h it hit).1)

/-! # Spread-merge lookup characterization -/

theorem lookupKey_append_some {k : Str} {a : List (Str × Json)} {w : Json}
    (b : List (Str × Json)) (h : lookupKey k a = some w) :
    lookupKey k (a ++ b) = some w := by
  induction a with
  | nil => simp [lookupKey] at h
  | cons kv a ih =>
    obtain ⟨k0, v0⟩ := kv
    rw [lookupKey] at h
    rw [List.cons_append, lookupKey]
    by_cases he : k0 = k
    · simpa [he] using h
    · simp only [he, if_neg] at h ⊢
      exact ih h

theorem lookupKey_append_none {k : Str} {a : List (Str × Json)}
    (b : List (Str × Json)) (h : lookupKey k a = none) :
    lookupKey k (a ++ b) = lookupKey k b := by
  induction a with
  | nil => rfl
  | cons kv a ih =>
    obtain ⟨k0, v0⟩ := kv
    rw [lookupKey] at h
    rw [List.cons_append, lookupKey]
    by_cases he : k0 = k
    · simp [he] at h
    · simp only [he, if_neg] at h ⊢
      exact ih h

theorem lookupKey_spread_part1 (k : Str) (a b : List (Str × Json)) :
    lookupKey k (a.map (fun kv => (kv.1, (lookupKey kv.1 b).getD kv.2)))
      = (lookupKey k a).map (fun w => (lookupKey k b).getD w) := by
  induction a with
  | nil => rfl
  | cons kv a ih =>
    rw [List.map_cons, lookupKey, lookupKey]
    by_cases he : kv.1 = k
    · subst he
      simp
    · simp only [he, if_neg]
      exact ih

theorem lookupKey_spread_part2 {k : Str} {a : List (Str × Json)}
    (b : List (Str × Json)) (h : lookupKey k a = none) :
    lookupKey k (b.filter (fun kv => (lookupKey kv.1 a).isNone)) = lookupKey k b := by
  induction b with
  | nil => rfl
  | cons kv b ih =>
    obtain ⟨k0, v0⟩ := kv
    rw [List.filter_cons]
    by_cases he : k0 = k
    · subst he
      rw [if_pos (by simp [h]), lookupKey, if_pos rfl, lookupKey, if_pos rfl]
    · rcases hp : (lookupKey k0 a).isNone with _ | _
      · simp only [hp, Bool.false_eq_true, if_neg]
        rw [lookupKey, if_neg he]
        exact ih
      · simp only [hp, if_pos]
        rw [lookupKey, if_neg he, lookupKey, if_neg he]
        exact ih

/-- `{ ...a, ...b }`: a key present in `b` takes `b`'s value wholesale; a key
absent from `b` keeps `a`'s value. -/
theorem lookupKey_spreadObj (k : Str) (a b : List (Str × Json)) :
    lookupKey k (spreadObj a b)
      = (match lookupKey k b with
        | some w => some w
        | none => lookupKey k a) := by
  rw [spreadObj]
  rcases ha : lookupKey k a with _ | w
  · rw [lookupKey_append_none]
    · rw [lookupKey_spread_part2 b ha]
      rcases hb : lookupKey k b with _ | u <;> simp [ha]
    · rw [lookupKey_spread_part1, ha]
      rfl
  · have h1 : lookupKey k (a.map (fun kv => (kv.1, (lookupKey kv.1 b).getD kv.2)))
        = some ((lookupKey k b).getD w) := by
      rw [lookupKey_spread_part1, ha]
      rfl
    rw [lookupKey_append_some _ h1]
    rcases hb : lookupKey k b with _ | u <;> simp [hb]

/-! # Generic list helpers -/

theorem getD_set_ne {α : Type} {l : List α} {i j : Nat} (h : i ≠ j) (v d : α) :
    (l.set i v).getD j d = l.getD j d := by
  simp [List.getD_eq_getElem?_getD, List.getElem?_set_ne h]

theorem foldl_inv {α β : Type} (P : β → Prop) (f : β → α → β)
    (hstep : ∀ st x, P st → P (f st x)) :
    ∀ (l : List α) (st : β), P st → P (l.foldl f st) := by
  intro l
  induction l with
  | nil => intro st h; exact h
  | cons x l ih => intro st h; exact ih (f st x) (hstep st x h)

/-! # Marking an item posted -/

theorem isInboxItem_obj {it : Json} (h : isInboxItem it = true) :
    ∃ kvs, it = .obj kvs := by
  cases it with
  | obj kvs => exact ⟨kvs, rfl⟩
  | null => simp [isInboxItem, getField] at h
  | bool b => simp [isInboxItem, getField] at h
  | num n => simp [isInboxItem, getField] at h
  | str s => simp [isInboxItem, getField] at h
  | arr xs => simp [isInboxItem, getField] at h

theorem markPosted_fields {it : Json} (hobj : isObjB it = true) (t : Str) (mid : Option Int) :
    getField (markPosted it t mid) (s2n "status") = some (.str (s2n "posted"))
    ∧ getField (markPosted it t mid) (s2n "updated_at") = some (.str t)
    ∧ getField (markPosted it t mid) (s2n "published")
        = some (.obj [(s2n "channel", .str (s2n "telegram")),
                      (s2n "post_id", .str (jsStringOrEmpty mid)),
                      (s2n "posted_at", .str t)])
    ∧ (∀ k, k ≠ s2n "status" → k ≠ s2n "updated_at" → k ≠ s2n "published" →
        getField (markPosted it t mid) k = getField it k) := by
  cases it with
  | obj kvs =>
    rw [markPosted]
    simp only [setField, getField]
    refine ⟨?_, ?_, ?_, ?_⟩
    · rw [lookupKey_setKeyL_ne (by decide), lookupKey_setKeyL_ne (by decide),
        lookupKey_setKeyL_self]
    · rw [lookupKey_setKeyL_ne (by decide), lookupKey_setKeyL_self]
    · rw [lookupKey_setKeyL_self]
    · intro k h1 h2 h3
      rw [lookupKey_setKeyL_ne (fun e => h3 e.symm),
        lookupKey_setKeyL_ne (fun e => h2 e.symm),
        lookupKey_setKeyL_ne (fun e => h1 e.symm)]
  | null => simp [isObjB] at hobj
  | bool b => simp [isObjB] at hobj
  | num n => simp [isObjB] at hobj
  | str s => simp [isObjB] at hobj
  | arr xs => simp [isObjB] at hobj

theorem markPosted_wf {it : Json} (hwf : wfB it = true) (t : Str) (mid : Option Int) :
    wfB (markPosted it t mid) = true := by
  rw [markPosted]
  apply setField_wf
  · apply setField_wf
    · exact setField_wf _ hwf rfl
    · rfl
  · rfl

/-! # Claim theorems -/

/-- **C5** (counterexample): the issue-ingest canonicalizer does not perform
the spec's step "remove a fixed set of known tracking query parameters" — on
`https://example.com/page?q=1` it removes the non-tracking parameter `q` as
well, so canonicalization does not follow the claimed steps for every raw
URL input. -/
theorem claim5_counterexample :
    issueNormalizeUrl (s2n "https://example.com/page?q=1") = s2n "https://example.com/page"
    ∧ specCanonicalize (s2n "https://example.com/page?q=1")
        = s2n "https://example.com/page?q=1"
    ∧ issueNormalizeUrl (s2n "https://example.com/page?q=1")
        ≠ specCanonicalize (s2n "https://example.com/page?q=1") := by
  refine ⟨?_, ?_, ?_⟩ <;> decide

/-- **C5** (amended): the inbox-ingest `normalizeUrl` performs exactly the
claimed steps in order (parse with failure returning the input unchanged,
remove the fixed tracking-parameter set, clear the fragment, strip trailing
slashes off a non-root path, upgrade `http` to `https`) and is a pure
function; the issue-ingest `normalizeUrl` performs the same steps except
that it clears the entire query instead of only the tracking parameters. -/
theorem claim5_canonicalize_steps :
    (∀ raw, inboxNormalizeUrl raw = specCanonicalize raw)
    ∧ (∀ raw, issueNormalizeUrl raw = specCanonicalizeDropQuery raw) := by
  constructor
  · intro raw
    unfold inboxNormalizeUrl specCanonicalize
    cases h : parseURL raw <;> rfl
  · intro raw
    unfold issueNormalizeUrl specCanonicalizeDropQuery
    cases h : parseURL raw <;> rfl

/-- **C6**: a publish run with a failed send leaves the file untouched; a run
with no pending item leaves the file untouched; a successful run rewrites the
file with exactly the loaded items where only the *first* `status = 'inbox'`
item — at most one per run — is replaced by its posted version (status
`posted`, `updated_at` and `published` set), every other position unchanged. -/
theorem claim6_publish_at_most_once (file : Option Str) (postedAt : Str) (mid : Option Int) :
    ((publishRun file .fail postedAt).1 = file)
    ∧ ((loadItems file).findIdx? isInboxItem = none →
        publishRun file (.ok mid) postedAt = (file, .noInbox))
    ∧ (∀ i, (loadItems file).findIdx? isInboxItem = some i →
        publishRun file (.ok mid) postedAt
          = (some (saveItems ((loadItems file).set i
              (markPosted ((loadItems file).getD i .null) postedAt mid))), .posted)
        ∧ isInboxItem ((loadItems file).getD i .null) = true
        ∧ (∀ j, j < i → isInboxItem ((loadItems file).getD j .null) = false)
        ∧ (∀ j, j ≠ i →
            ((loadItems file).set i
              (markPosted ((loadItems file).getD i .null) postedAt mid)).getD j .null
              = (loadItems file).getD j .null)
        ∧ getField (markPosted ((loadItems file).getD i .null) postedAt mid) (s2n "status")
            = some (.str (s2n "posted"))
        ∧ getField (markPosted ((loadItems file).getD i .null) postedAt mid) (s2n "updated_at")
            = some (.str postedAt)
        ∧ getField (markPosted ((loadItems file).getD i .null) postedAt mid) (s2n "published")
            = some (.obj [(s2n "channel", .str (s2n "telegram")),
                          (s2n "post_id", .str (jsStringOrEmpty mid)),
                          (s2n "posted_at", .str postedAt)])) := by
  refine ⟨?_, ?_, ?_⟩
  · rw [publishRun]
    cases h : (loadItems file).findIdx? isInboxItem <;> rfl
  · intro h
    rw [publishRun, h]
  · intro i h
    obtain ⟨hlt, hp, hmin⟩ := List.findIdx?_eq_some_iff_getElem.mp h
    have hgetD : (loadItems file).getD i .null = (loadItems file)[i] := by
      simp [List.getD_eq_getElem?_getD, List.getElem?_eq_getElem hlt]
    have hinbox : isInboxItem ((loadItems file).getD i .null) = true := by
      rw [hgetD]; exact hp
    obtain ⟨kvs, hkvs⟩ := isInboxItem_obj hinbox
    have hobj : isObjB ((loadItems file).getD i .null) = true := by rw [hkvs]; rfl
    obtain ⟨hf1, hf2, hf3, _⟩ := markPosted_fields hobj postedAt mid
    refine ⟨?_, hinbox, ?_, ?_, hf1, hf2, hf3⟩
    · rw [publishRun, h]
    · intro j hj
      have hjlt : j < (loadItems file).length := Nat.lt_trans hj hlt
      have : (loadItems file).getD j .null = (loadItems file)[j] := by
        simp [List.getD_eq_getElem?_getD, List.getElem?_eq_getElem hjlt]
      rw [this]
      simpa using hmin j hj
    · intro j hj
      exact getD_set_ne (fun e => hj e.symm) _ _

/-! ## Issue-ingest record and merge helpers -/

theorem spreadMerge_obj (a b : List (Str × Json)) :
    spreadMerge (.obj a) (.obj b) = .obj (spreadObj a b) := rfl

theorem getField_obj (kvs : List (Str × Json)) (k : Str) :
    getField (.obj kvs) k = lookupKey k kvs := rfl

theorem idMatches_obj {id : Str} {it : Json} (h : idMatches id it = true) :
    ∃ kvs, it = .obj kvs ∧ getField it (s2n "id") = some (.str id) := by
  cases it with
  | obj kvs =>
    refine ⟨kvs, rfl, ?_⟩
    rw [idMatches] at h
    rcases hg : getField (Json.obj kvs) (s2n "id") with _ | v
    · rw [hg] at h; cases h
    · rw [hg] at h
      cases v with
      | str s =>
        have hs : s = id := by simpa using h
        rw [hs]
      | null => cases h
      | bool b => cases h
      | num n => cases h
      | arr xs => cases h
      | obj o => cases h
  | null => rw [idMatches] at h; cases h
  | bool b => rw [idMatches] at h; cases h
  | num n => rw [idMatches] at h; cases h
  | str s => rw [idMatches] at h; cases h
  | arr xs => rw [idMatches] at h; cases h

/-- The shape of the candidate record: an object whose `status` is
`'enriched'`, whose `id` is the derived id, whose `created_at` implements
`idx >= 0 ? (items[idx].created_at || now) : now`, and which always carries
`content`, `tags` and `source` keys. -/
theorem buildIssueRecord_fields (canonical owner repoName : Str) (meta : RepoMeta)
    (enrich : Option Enrich) (issueNumber : Int) (now : Str) (existing : Option Json) :
    ∃ fields,
      buildIssueRecord canonical owner repoName meta enrich issueNumber now existing
        = .obj fields
      ∧ lookupKey (s2n "status") fields = some (.str (s2n "enriched"))
      ∧ lookupKey (s2n "id") fields = some (.str (deriveId canonical))
      ∧ lookupKey (s2n "created_at") fields
          = some (match existing with
            | some ex =>
              match getField ex (s2n "created_at") with
              | some v => if jsTruthy v then v else .str now
              | none => .str now
            | none => .str now)
      ∧ (lookupKey (s2n "content") fields).isSome = true
      ∧ (lookupKey (s2n "tags") fields).isSome = true
      ∧ (lookupKey (s2n "source") fields).isSome = true :=
  ⟨_, rfl, rfl, rfl, rfl, rfl, rfl, rfl⟩

set_option maxRecDepth 1000000 in
/-- **C1** (counterexample): re-ingesting `fixUrl` over the stored
`fixExisting` — whose `content` carries the populated key `pricing`, whose
`tags` hold `security/privacy`, and whose `source.type` is `tg` — clears
`content.pricing` (absent from the candidate's `content`), replaces `tags`
instead of unioning them, and overwrites `source` although the existing item
had one.  The merge is not non-destructive. -/
theorem claim1_counterexample :
    (getField fixExisting (s2n "content")).bind (fun c => getField c (s2n "pricing"))
        = some (.str (s2n "free"))
    ∧ getField fixExisting (s2n "tags") = some (.arr [.str (s2n "security/privacy")])
    ∧ (getField fixExisting (s2n "source")).bind (fun so => getField so (s2n "type"))
        = some (.str (s2n "tg"))
    ∧ (issueIngestStep [fixExisting] fixUrl fixMeta none 7 fixNow).map
        (fun res =>
          ((getField (res.1.getD 0 .null) (s2n "content")).bind
              (fun c => getField c (s2n "pricing")),
           getField (res.1.getD 0 .null) (s2n "tags"),
           (getField (res.1.getD 0 .null) (s2n "source")).bind
              (fun so => getField so (s2n "type"))))
        = some (none, some (.arr [.str (s2n "dev/open-source")]), some (.str (s2n "github"))) := by
  exact ⟨rfl, rfl, rfl, by rfl⟩

/-- **C1** (amended): the upsert's merge is a top-level shallow spread —
for every key, the merged item holds the candidate record's value when the
record has that key, and the existing item's value only otherwise; in
particular, since the candidate record always carries `content`, `tags` and
`source` keys, those three fields are taken wholesale from the record (not
merged key-by-key, not unioned, not preserved).  Fields the record lacks
(e.g. `published`) survive from the existing item. -/
theorem claim1_merge_shallow_spread :
    (∀ (a b : List (Str × Json)) (k : Str),
      getField (spreadMerge (.obj a) (.obj b)) k
        = (match lookupKey k b with
          | some w => some w
          | none => lookupKey k a))
    ∧ (∀ (ex : List (Str × Json)) (canonical owner repoName : Str) (meta : RepoMeta)
        (enrich : Option Enrich) (issueNumber : Int) (now : Str) (existing : Option Json),
        let record := buildIssueRecord canonical owner repoName meta enrich issueNumber
          now existing
        getField (spreadMerge (.obj ex) record) (s2n "content")
            = getField record (s2n "content")
        ∧ getField (spreadMerge (.obj ex) record) (s2n "tags") = getField record (s2n "tags")
        ∧ getField (spreadMerge (.obj ex) record) (s2n "source")
            = getField record (s2n "source")) := by
  constructor
  · intro a b k
    rw [spreadMerge_obj, getField_obj, lookupKey_spreadObj]
  · intro ex canonical owner repoName meta enrich issueNumber now existing
    obtain ⟨fields, hf, hstat, hfid, hfcr, hc, ht, hs⟩ :=
      buildIssueRecord_fields canonical owner repoName meta enrich issueNumber now existing
    rcases hcv : lookupKey (s2n "content") fields with _ | cv
    · rw [hcv] at hc; cases hc
    rcases htv : lookupKey (s2n "tags") fields with _ | tv
    · rw [htv] at ht; cases ht
    rcases hsv : lookupKey (s2n "source") fields with _ | sv
    · rw [hsv] at hs; cases hs
    refine ⟨?_, ?_, ?_⟩ <;>
      rw [hf, spreadMerge_obj, getField_obj, getField_obj, lookupKey_spreadObj]
    · rw [hcv]
    · rw [htv]
    · rw [hsv]

set_option maxRecDepth 1000000 in
/-- **C3** (counterexample): the two raw URLs of the scenario do *not* yield
the same id.  Canonicalization lowercases only the scheme and host, never the
path, so `https://Example.com/Page/?utm_source=x` canonicalizes to
`https://example.com/Page` while `https://example.com/page` stays
`https://example.com/page`; their SHA-1-derived ids differ, and the second
ingestion would insert a new item rather than update. -/
theorem claim3_counterexample :
    inboxNormalizeUrl (s2n "https://Example.com/Page/?utm_source=x")
        = s2n "https://example.com/Page"
    ∧ issueNormalizeUrl (s2n "https://example.com/page") = s2n "https://example.com/page"
    ∧ deriveId (inboxNormalizeUrl (s2n "https://Example.com/Page/?utm_source=x"))
        ≠ deriveId (issueNormalizeUrl (s2n "https://example.com/page")) := by
  refine ⟨by decide, by decide, by decide⟩

set_option maxRecDepth 1000000 in
/-- **C3** (amended): dedup across producers does work when the two raw URLs
differ only in host case, scheme, tracking parameters, or a trailing slash —
not in path case.  The inbox producer's canonicalization of
`https://GitHub.com/acme/tool/?utm_source=x` and the issue producer's
canonicalization of `http://github.com/acme/tool` agree
(`https://github.com/acme/tool`), derive the same id, and the issue
ingestion of the second URL over a log holding the first performs an update
(same collection size, `updated = true`), not an insert. -/
theorem claim3_dedup_same_path_case :
    inboxNormalizeUrl (s2n "https://GitHub.com/acme/tool/?utm_source=x")
        = s2n "https://github.com/acme/tool"
    ∧ issueNormalizeUrl (s2n "http://github.com/acme/tool")
        = s2n "https://github.com/acme/tool"
    ∧ deriveId (inboxNormalizeUrl (s2n "https://GitHub.com/acme/tool/?utm_source=x"))
        = deriveId (issueNormalizeUrl (s2n "http://github.com/acme/tool"))
    ∧ (issueIngestStep
        [buildInboxItem (s2n "https://GitHub.com/acme/tool/?utm_source=x")
          (inboxNormalizeUrl (s2n "https://GitHub.com/acme/tool/?utm_source=x"))
          (deriveId (inboxNormalizeUrl (s2n "https://GitHub.com/acme/tool/?utm_source=x")))
          fixMsg]
        (s2n "http://github.com/acme/tool") fixMeta none 7 fixNow).map
        (fun res => (res.1.length, res.2.1))
        = some (1, true) := by
  refine ⟨by decide, by decide, by decide, by rfl⟩

set_option maxRecDepth 1000000 in
/-- **C2** (counterexample): the issue-ingest upsert silently moves a
`posted` item *backwards*: re-ingesting the URL of `fixExisting` (whose
status is `posted`) leaves it with status `enriched`, a state that is not
even on the `inbox → shortlisted → scheduled → posted` graph, and no drop
transition was requested. -/
theorem claim2_counterexample :
    getField fixExisting (s2n "status") = some (.str (s2n "posted"))
    ∧ (issueIngestStep [fixExisting] fixUrl fixMeta none 7 fixNow).map
        (fun res => getField (res.1.getD 0 .null) (s2n "status"))
        = some (some (.str (s2n "enriched"))) := by
  exact ⟨rfl, by rfl⟩

/-- **C2** (amended): the publish driver respects the forward-only
lifecycle — it changes at most the first `inbox` item and only to `posted`,
leaving every other position untouched — but the issue-ingest driver
unconditionally sets the status of every record it upserts to `'enriched'`,
overwriting whatever status (including `posted`) the stored item had. -/
theorem claim2_status_lifecycle :
    (∀ (file : Option Str) (postedAt : Str) (mid : Option Int) (i : Nat),
      (loadItems file).findIdx? isInboxItem = some i →
        isInboxItem ((loadItems file).getD i .null) = true
        ∧ getField (markPosted ((loadItems file).getD i .null) postedAt mid) (s2n "status")
            = some (.str (s2n "posted"))
        ∧ (∀ j, j ≠ i →
            ((loadItems file).set i
              (markPosted ((loadItems file).getD i .null) postedAt mid)).getD j .null
              = (loadItems file).getD j .null))
    ∧ (∀ (ex : List (Str × Json)) (canonical owner repoName : Str) (meta : RepoMeta)
        (enrich : Option Enrich) (issueNumber : Int) (now : Str) (existing : Option Json),
        getField (spreadMerge (.obj ex)
            (buildIssueRecord canonical owner repoName meta enrich issueNumber now existing))
          (s2n "status")
          = some (.str (s2n "enriched"))) := by
  constructor
  · intro file postedAt mid i h
    obtain ⟨hlt, hp, hmin⟩ := List.findIdx?_eq_some_iff_getElem.mp h
    have hgetD : (loadItems file).getD i .null = (loadItems file)[i] := by
      simp [List.getD_eq_getElem?_getD, List.getElem?_eq_getElem hlt]
    have hinbox : isInboxItem ((loadItems file).getD i .null) = true := by
      rw [hgetD]; exact hp
    obtain ⟨kvs, hkvs⟩ := isInboxItem_obj hinbox
    have hobj : isObjB ((loadItems file).getD i .null) = true := by rw [hkvs]; rfl
    exact ⟨hinbox, (markPosted_fields hobj postedAt mid).1,
      fun j hj => getD_set_ne (fun e => hj e.symm) _ _⟩
  · intro ex canonical owner repoName meta enrich issueNumber now existing
    obtain ⟨fields, hf, hstat, -⟩ :=
      buildIssueRecord_fields canonical owner repoName meta enrich issueNumber now existing
    rw [hf, spreadMerge_obj, getField_obj, lookupKey_spreadObj, hstat]

/-- Witness for C2 at a concrete log and a concrete upsert. -/
theorem claim2_witness :
    isInboxItem ((loadItems (some fixFile)).getD 1 .null) = true
    ∧ getField (spreadMerge (.obj [(s2n "status", .str (s2n "posted"))])
          (buildIssueRecord fixUrl (s2n "acme") (s2n "tool") fixMeta none 7 fixNow none))
        (s2n "status")
        = some (.str (s2n "enriched")) := by
  constructor
  · exact ((claim2_status_lifecycle.1 (some fixFile) fixNow (some 42) 1) (by rfl)).1
  · exact claim2_status_lifecycle.2 [(s2n "status", .str (s2n "posted"))] fixUrl
      (s2n "acme") (s2n "tool") fixMeta none 7 fixNow none

set_option maxRecDepth 1000000 in
/-- **C4** (counterexample): re-ingesting the canonical URL of an item whose
`created_at` is `null` rewrites `created_at` to the ingest time — the
`items[idx].created_at || now` fallback — so re-ingestion does not leave
`created_at` unchanged for *every* stored item. -/
theorem claim4_counterexample :
    getField fixExistingNullCreated (s2n "created_at") = some .null
    ∧ (issueIngestStep [fixExistingNullCreated] fixUrl fixMeta none 7 fixNow).map
        (fun res => getField (res.1.getD 0 .null) (s2n "created_at"))
        = some (some (.str fixNow)) := by
  exact ⟨rfl, by rfl⟩

/-- **C4** (amended): when the issue ingester re-ingests a URL whose derived
id is already stored and the stored item's `created_at` is a non-empty
string, the upsert keeps `created_at` and `id` unchanged, reports an update,
and does not change the collection's size. -/
theorem claim4_created_at_immutable (items : List Json) (u : Str) (meta : RepoMeta)
    (enrich : Option Enrich) (issueNumber : Int) (now : Str) (idx : Nat) (s : Str)
    (res : List Json × Bool × Str)
    (hidx : items.findIdx? (idMatches (deriveId (issueNormalizeUrl u))) = some idx)
    (hcreated : getField (items.getD idx .null) (s2n "created_at") = some (.str s))
    (hs : s ≠ [])
    (hres : issueIngestStep items u meta enrich issueNumber now = some res) :
    res.2.1 = true
    ∧ getField (res.1.getD idx .null) (s2n "created_at") = some (.str s)
    ∧ getField (res.1.getD idx .null) (s2n "id")
        = some (.str (deriveId (issueNormalizeUrl u)))
    ∧ res.1.length = items.length := by
  rw [issueIngestStep] at hres
  rcases hgh : parseGitHubRepo (issueNormalizeUrl u) with _ | pr
  · rw [hgh] at hres; cases hres
  · rw [hgh] at hres
    obtain ⟨owner, repoName⟩ := pr
    simp only [hidx] at hres
    have hres2 := Option.some.inj hres
    subst hres2
    obtain ⟨hlt, hp, hmin⟩ := List.findIdx?_eq_some_iff_getElem.mp hidx
    have hgetD : items.getD idx .null = items[idx] := by
      simp [List.getD_eq_getElem?_getD, List.getElem?_eq_getElem hlt]
    have hinb : idMatches (deriveId (issueNormalizeUrl u)) (items.getD idx .null) = true := by
      rw [hgetD]; exact hp
    obtain ⟨kvs, hkvs, hid⟩ := idMatches_obj hinb
    obtain ⟨fields, hf, hstat, hfid, hfcreated, -⟩ :=
      buildIssueRecord_fields (issueNormalizeUrl u) owner repoName meta enrich issueNumber now
        (some (items.getD idx .null))
    have htr : jsTruthy (Json.str s) = true := by
      cases s with
      | nil => exact absurd rfl hs
      | cons c cs => rfl
    have hset : ∀ (x : Json), ((items.set idx x).getD idx .null) = x := by
      intro x
      simp [List.getD_eq_getElem?_getD, List.getElem?_set_self hlt]
    refine ⟨rfl, ?_, ?_, by simp⟩
    · show getField ((items.set idx _).getD idx .null) (s2n "created_at") = some (.str s)
      rw [hset, hf, hkvs, spreadMerge_obj, getField_obj, lookupKey_spreadObj, hfcreated]
      show some (match getField (items.getD idx Json.null) (s2n "created_at") with
        | some v => if jsTruthy v = true then v else Json.str now
        | none => Json.str now) = some (Json.str s)
      rw [hcreated]
      show some (if jsTruthy (Json.str s) = true then Json.str s else Json.str now)
        = some (Json.str s)
      simp [htr]
    · show getField ((items.set idx _).getD idx .null) (s2n "id")
        = some (.str (deriveId (issueNormalizeUrl u)))
      rw [hset, hf, hkvs, spreadMerge_obj, getField_obj, lookupKey_spreadObj, hfid]

set_option maxRecDepth 1000000 in
/-- Witness for C4: a stored item for `fixUrl` with a set creation time
keeps its `created_at` and `id` through a re-ingest. -/
theorem claim4_witness :
    ((issueIngestStep [fixExisting] fixUrl fixMeta none 7 fixNow).getD ([], false, [])).2.1
        = true
    ∧ getField ((((issueIngestStep [fixExisting] fixUrl fixMeta none 7 fixNow).getD
          ([], false, [])).1).getD 0 .null) (s2n "created_at")
        = some (.str (s2n "2026-01-01T00:00:00Z")) := by
  have h := claim4_created_at_immutable [fixExisting] fixUrl fixMeta none 7 fixNow 0
    (s2n "2026-01-01T00:00:00Z")
    ((issueIngestStep [fixExisting] fixUrl fixMeta none 7 fixNow).getD ([], false, []))
    (by rfl) (by rfl) (by decide) (by rfl)
  exact ⟨h.1, h.2.1⟩

/-! ## Fail-soft load helpers -/

theorem parseJson_nil : parseJson [] = none := rfl

/-- Loading the kept (non-empty) good lines yields exactly their parses. -/
theorem loadFilterMap_good : ∀ (g : List Str) (vs : List Json),
    g.map parseJson = vs.map some → (∀ v ∈ vs, isObjB v = true) →
    (g.filter (fun l => !l.isEmpty)).filterMap
      (fun l =>
        match parseJson l with
        | some v => if jsTruthy v = true then some v else none
        | none => none) = vs := by
  intro g
  induction g with
  | nil =>
    intro vs h _
    cases vs with
    | nil => rfl
    | cons v vs => simp at h
  | cons l g ih =>
    intro vs h hobj
    cases vs with
    | nil => simp at h
    | cons v vs =>
      rw [List.map_cons, List.map_cons] at h
      have hpl : parseJson l = some v := (List.cons.injEq _ _ _ _ ▸ h).1
      have hrest : g.map parseJson = vs.map some := (List.cons.injEq _ _ _ _ ▸ h).2
      have hlne : l ≠ [] := by
        intro e
        rw [e, parseJson_nil] at hpl
        cases hpl
      have htr : jsTruthy v = true := isObjB_truthy (hobj v (by simp))
      rw [List.filter_cons, if_pos (by simpa using hlne), List.filterMap_cons, hpl]
      simp only [htr, if_pos]
      rw [ih vs hrest (fun w hw => hobj w (List.mem_cons_of_mem _ hw))]

/-- **C7** (counterexample): a line holding the well-formed JSON document
`null` is dropped by the same `filter(Boolean)` that drops unparsable lines,
so a log of two well-formed lines (`null` and an object) plus one corrupt
line loads one item, not two. -/
theorem claim7_counterexample :
    parseJson (s2n "null") = some .null
    ∧ parseJson [123] = none
    ∧ loadItemsStr (joinNl [s2n "null", stringify fixInboxItem, [123]] ++ [10])
        = [fixInboxItem]
    ∧ (loadItemsStr (joinNl [s2n "null", stringify fixInboxItem, [123]] ++ [10])).length
        = 1 := by
  exact ⟨rfl, rfl, by rfl, by rfl⟩

/-- **C7** (amended): for a log file of well-formed *object* lines plus one
line that fails to parse, load returns exactly the objects of the good lines
in order — the corrupt line is skipped without aborting — and a missing file
loads as the empty sequence.  (A well-formed line whose parsed value is
falsy, such as a bare `null`, is dropped by the same filter; the data
model's items are objects, which are always truthy.) -/
theorem claim7_load_fail_soft (g1 g2 : List Str) (bad : Str) (vs1 vs2 : List Json)
    (h1 : g1.map parseJson = vs1.map some)
    (h2 : g2.map parseJson = vs2.map some)
    (hobj : ∀ v ∈ vs1 ++ vs2, isObjB v = true)
    (hbad : parseJson bad = none)
    (hnl : ∀ l ∈ g1 ++ [bad] ++ g2, (10 : Nat) ∉ l) :
    loadItemsStr (joinNl (g1 ++ [bad] ++ g2) ++ [10]) = vs1 ++ vs2
    ∧ loadItems none = [] := by
  refine ⟨?_, rfl⟩
  have hsplit : splitNl (joinNl (g1 ++ [bad] ++ g2) ++ [10])
      = (g1 ++ [bad] ++ g2) ++ [[]] := by
    rw [joinNl, splitNl]
    exact splitCh_joinSep 10 _ (by simp) hnl
  rw [loadItemsStr, hsplit]
  rw [List.filter_append, List.filter_append, List.filter_append]
  rw [List.filterMap_append, List.filterMap_append, List.filterMap_append]
  have hg1 := loadFilterMap_good g1 vs1 h1 (fun v hv => hobj v (List.mem_append_left _ hv))
  have hg2 := loadFilterMap_good g2 vs2 h2 (fun v hv => hobj v (List.mem_append_right _ hv))
  rw [hg1, hg2]
  have hmid : (([bad] : List Str).filter (fun l => !l.isEmpty)).filterMap
      (fun l =>
        match parseJson l with
        | some v => if jsTruthy v = true then some v else none
        | none => none) = [] := by
    cases hb : bad with
    | nil => rfl
    | cons c cs =>
      rw [← hb, List.filter_cons]
      rcases hemp : bad.isEmpty with _ | _
      · simp only [Bool.not_false, if_pos]
        rw [List.filter_nil, List.filterMap_cons, hbad]
        rfl
      · rw [hb] at hemp
        simp at hemp
  rw [hmid]
  have hlast : (([[]] : List Str).filter (fun l => !l.isEmpty)).filterMap
      (fun l =>
        match parseJson l with
        | some v => if jsTruthy v = true then some v else none
        | none => none) = [] := rfl
  rw [hlast]
  simp

/-- Witness for C7: a concrete three-line file with a corrupt middle line
loads exactly its two object lines. -/
theorem claim7_witness :
    loadItemsStr (joinNl [stringify fixPostedItem, [123], stringify fixInboxItem] ++ [10])
      = [fixPostedItem, fixInboxItem] := by
  have h := claim7_load_fail_soft [stringify fixPostedItem] [stringify fixInboxItem] [123]
    [fixPostedItem] [fixInboxItem]
    (by rw [List.map_cons, List.map_nil, parseJson_stringify fixPostedItem (by rfl),
          List.map_cons, List.map_nil])
    (by rw [List.map_cons, List.map_nil, parseJson_stringify fixInboxItem (by rfl),
          List.map_cons, List.map_nil])
    (by
      intro v hv
      rcases List.mem_cons.mp hv with h | h
      · rw [h]; rfl
      · rcases List.mem_cons.mp h with h | h
        · rw [h]; rfl
        · exact absurd h (List.not_mem_nil _))
    (by rfl)
    (by
      intro l hl
      rcases List.mem_append.mp hl with h | h
      · rcases List.mem_append.mp h with h | h
        · rcases List.mem_cons.mp h with h | h
          · rw [h]; exact stringify_no_newline fixPostedItem
          · exact absurd h (List.not_mem_nil _)
        · rcases List.mem_cons.mp h with h | h
          · rw [h]; decide
          · exact absurd h (List.not_mem_nil _)
      · rcases List.mem_cons.mp h with h | h
        · rw [h]; exact stringify_no_newline fixInboxItem
        · exact absurd h (List.not_mem_nil _))
  exact h.1

/-- **C8**: saving a well-formed collection of items (one JSON object per
line, in order, trailing newline, whole-file replacement) and loading it
back reproduces the collection exactly — order and every field. -/
theorem claim8_load_save_roundtrip (items : List Json)
    (h : ∀ it ∈ items, isObjB it = true ∧ wfB it = true) :
    loadItems (some (saveItems items)) = items :=
  loadItems_saveItems items h

/-- Witness for C8 on a concrete two-item collection. -/
theorem claim8_witness :
    loadItems (some (saveItems [fixPostedItem, fixInboxItem]))
      = [fixPostedItem, fixInboxItem] := by
  apply claim8_load_save_roundtrip
  intro it hit
  rcases List.mem_cons.mp hit with h | h
  · rw [h]; exact ⟨rfl, rfl⟩
  · rcases List.mem_cons.mp h with h | h
    · rw [h]; exact ⟨rfl, rfl⟩
    · exact absurd h (List.not_mem_nil _)

/-! ## Whole-file rewrite canonicalization (C9) -/

theorem parseJson_skipWs_ne_nil {l : Str} {v : Json} (h : parseJson l = some v) :
    skipWs l ≠ [] := by
  intro e
  rw [parseJson] at h
  have hz : parseValF (l.length + 1) l = none := by
    rw [parseValF_succ, e]
  rw [hz] at h
  cases h

/-- **C9**: after a successful publish run the log file is exactly the
re-serialization of the items that parsed at load time (with the one
selected item marked posted): its lines are the serialized items followed
by the empty trailing segment, every non-empty line of the new file parses,
and any non-empty line of the old file that failed to parse is gone. -/
theorem claim9_rewrite_drops_junk (content postedAt : Str) (mid : Option Int) (i : Nat)
    (h : (loadItemsStr content).findIdx? isInboxItem = some i) :
    (publishRun (some content) (.ok mid) postedAt).1
        = some (saveItems ((loadItemsStr content).set i
            (markPosted ((loadItemsStr content).getD i .null) postedAt mid)))
    ∧ splitNl (saveItems ((loadItemsStr content).set i
          (markPosted ((loadItemsStr content).getD i .null) postedAt mid)))
        = ((loadItemsStr content).set i
            (markPosted ((loadItemsStr content).getD i .null) postedAt mid)).map stringify
          ++ [[]]
    ∧ (∀ l ∈ splitNl (saveItems ((loadItemsStr content).set i
          (markPosted ((loadItemsStr content).getD i .null) postedAt mid))),
        l ≠ [] → (parseJson l).isSome = true)
    ∧ (∀ l ∈ splitNl content, parseJson l = none → l ≠ [] →
        l ∉ splitNl (saveItems ((loadItemsStr content).set i
          (markPosted ((loadItemsStr content).getD i .null) postedAt mid)))) := by
  obtain ⟨hlt, hp, hmin⟩ := List.findIdx?_eq_some_iff_getElem.mp h
  have hgetD : (loadItemsStr content).getD i .null = (loadItemsStr content)[i] := by
    simp [List.getD_eq_getElem?_getD, List.getElem?_eq_getElem hlt]
  have hwfi : wfB ((loadItemsStr content).getD i .null) = true := by
    rw [hgetD]
    exact loadItemsStr_wf content _ (List.getElem_mem hlt)
  have hwf2 : ∀ it ∈ (loadItemsStr content).set i
      (markPosted ((loadItemsStr content).getD i .null) postedAt mid), wfB it = true := by
    intro it hit
    rcases List.mem_or_eq_of_mem_set hit with hmem | heq
    · exact loadItemsStr_wf content it hmem
    · rw [heq]
      exact markPosted_wf hwfi postedAt mid
  have hne2 : (loadItemsStr content).set i
      (markPosted ((loadItemsStr content).getD i .null) postedAt mid) ≠ [] := by
    intro e
    have h3 := congrArg List.length e
    rw [List.length_set, List.length_nil] at h3
    omega
  have hlines := splitNl_saveItems _ hne2
  refine ⟨?_, hlines, ?_, ?_⟩
  · have h2 : (loadItems (some content)).findIdx? isInboxItem = some i := h
    rw [publishRun, h2]
    rfl
  · intro l hl hlne
    rw [hlines] at hl
    rcases List.mem_append.mp hl with hm | hm
    · obtain ⟨it, hit, heq⟩ := List.mem_map.mp hm
      rw [← heq, parseJson_stringify it (hwf2 it hit)]
      rfl
    · rcases List.mem_cons.mp hm with hm | hm
      · exact absurd hm hlne
      · exact absurd hm (List.not_mem_nil _)
  · intro l hl hnone hlne hmem2
    rw [hlines] at hmem2
    rcases List.mem_append.mp hmem2 with hm | hm
    · obtain ⟨it, hit, heq⟩ := List.mem_map.mp hm
      rw [← heq, parseJson_stringify it (hwf2 it hit)] at hnone
      cases hnone
    · rcases List.mem_cons.mp hm with hm | hm
      · exact absurd hm hlne
      · exact absurd hm (List.not_mem_nil _)

/-- Witness for C9 on the concrete two-item log. -/
theorem claim9_witness :
    (publishRun (some fixFile) (.ok (some 99)) fixNow).1
      = some (saveItems ((loadItemsStr fixFile).set 1
          (markPosted ((loadItemsStr fixFile).getD 1 .null) fixNow (some 99)))) :=
  (claim9_rewrite_drops_junk fixFile fixNow (some 99) 1 (by rfl)).1

set_option maxRecDepth 1000000 in
/-- Counterexample to the literal reading of C9: the rewritten file is not
the re-serialization of the load-time items exactly as they were loaded,
because the selected inbox item is written back in its marked-posted form. -/
theorem claim9_counterexample :
    (publishRun (some fixFile) (.ok (some 99)) fixNow).1
      ≠ some (saveItems (loadItemsStr fixFile)) := by
  decide

/-! ## Inbox-ingest duplicate avoidance (C10) -/

theorem itemIdStr_buildInboxItem (rawUrl canonical id : Str) (m : TgMsg) :
    itemIdStr (buildInboxItem rawUrl canonical id m) = some id := rfl

/-- **C10**: a single inbox-ingest run never appends two items with the same
id and never appends an item whose id is already present on a parsable line
of the log; consequently, when the ids of the loaded items are pairwise
distinct before the run, the ids of loaded-plus-appended items are pairwise
distinct after it. -/
theorem claim10_ingest_no_duplicates (chat content : Str) (updates : List TgUpdate) :
    ((ingestRun chat (buildExistingIds content) updates).filterMap itemIdStr).Nodup
    ∧ (∀ s ∈ (ingestRun chat (buildExistingIds content) updates).filterMap itemIdStr,
        s ∉ buildExistingIds content)
    ∧ (((loadItemsStr content).filterMap itemIdStr).Nodup →
        ((loadItemsStr content
            ++ ingestRun chat (buildExistingIds content) updates).filterMap itemIdStr).Nodup) := by
  have hmain : ∀ st : List Str × List Json,
      ((st.2.filterMap itemIdStr).Nodup
        ∧ (∀ s ∈ st.2.filterMap itemIdStr, s ∈ st.1)
        ∧ (∀ s ∈ buildExistingIds content, s ∈ st.1)
        ∧ (∀ s ∈ st.2.filterMap itemIdStr, s ∉ buildExistingIds content)) →
      ∀ u : TgUpdate,
      (((ingestUpdateStep chat st u).2.filterMap itemIdStr).Nodup
        ∧ (∀ s ∈ (ingestUpdateStep chat st u).2.filterMap itemIdStr,
            s ∈ (ingestUpdateStep chat st u).1)
        ∧ (∀ s ∈ buildExistingIds content, s ∈ (ingestUpdateStep chat st u).1)
        ∧ (∀ s ∈ (ingestUpdateStep chat st u).2.filterMap itemIdStr,
            s ∉ buildExistingIds content)) := by
    have hurl : ∀ (m : TgMsg) (st : List Str × List Json) (rawUrl : Str),
        ((st.2.filterMap itemIdStr).Nodup
          ∧ (∀ s ∈ st.2.filterMap itemIdStr, s ∈ st.1)
          ∧ (∀ s ∈ buildExistingIds content, s ∈ st.1)
          ∧ (∀ s ∈ st.2.filterMap itemIdStr, s ∉ buildExistingIds content)) →
        (((ingestUrlStep m st rawUrl).2.filterMap itemIdStr).Nodup
          ∧ (∀ s ∈ (ingestUrlStep m st rawUrl).2.filterMap itemIdStr,
              s ∈ (ingestUrlStep m st rawUrl).1)
          ∧ (∀ s ∈ buildExistingIds content, s ∈ (ingestUrlStep m st rawUrl).1)
          ∧ (∀ s ∈ (ingestUrlStep m st rawUrl).2.filterMap itemIdStr,
              s ∉ buildExistingIds content)) := by
      intro m st rawUrl hP
      obtain ⟨ids, acc⟩ := st
      obtain ⟨hnd, hsub, hexist, hdisj⟩ := hP
      by_cases hmem : deriveId (inboxNormalizeUrl rawUrl) ∈ ids
      · have hstep : ingestUrlStep m (ids, acc) rawUrl = (ids, acc) := by
          show (if deriveId (inboxNormalizeUrl rawUrl) ∈ ids then (ids, acc)
              else (deriveId (inboxNormalizeUrl rawUrl) :: ids,
                acc ++ [buildInboxItem rawUrl (inboxNormalizeUrl rawUrl)
                  (deriveId (inboxNormalizeUrl rawUrl)) m])) = (ids, acc)
          rw [if_pos hmem]
        rw [hstep]
        exact ⟨hnd, hsub, hexist, hdisj⟩
      · have hstep : ingestUrlStep m (ids, acc) rawUrl
            = (deriveId (inboxNormalizeUrl rawUrl) :: ids,
                acc ++ [buildInboxItem rawUrl (inboxNormalizeUrl rawUrl)
                  (deriveId (inboxNormalizeUrl rawUrl)) m]) := by
          show (if deriveId (inboxNormalizeUrl rawUrl) ∈ ids then (ids, acc)
              else (deriveId (inboxNormalizeUrl rawUrl) :: ids,
                acc ++ [buildInboxItem rawUrl (inboxNormalizeUrl rawUrl)
                  (deriveId (inboxNormalizeUrl rawUrl)) m]))
            = (deriveId (inboxNormalizeUrl rawUrl) :: ids,
                acc ++ [buildInboxItem rawUrl (inboxNormalizeUrl rawUrl)
                  (deriveId (inboxNormalizeUrl rawUrl)) m])
          rw [if_neg hmem]
        rw [hstep]
        have hfm : ((acc ++ [buildInboxItem rawUrl (inboxNormalizeUrl rawUrl)
            (deriveId (inboxNormalizeUrl rawUrl)) m]).filterMap itemIdStr)
            = acc.filterMap itemIdStr ++ [deriveId (inboxNormalizeUrl rawUrl)] := by
          rw [List.filterMap_append]
          rfl
        refine ⟨?_, ?_, ?_, ?_⟩
        · show ((acc ++ [buildInboxItem rawUrl (inboxNormalizeUrl rawUrl)
              (deriveId (inboxNormalizeUrl rawUrl)) m]).filterMap itemIdStr).Nodup
          rw [hfm, List.nodup_append]
          refine ⟨hnd, List.nodup_singleton _, ?_⟩
          intro a ha hb
          rcases List.mem_singleton.mp hb with rfl
          exact hmem (hsub _ ha)
        · intro s hs
          have hs2 : s ∈ (acc ++ [buildInboxItem rawUrl (inboxNormalizeUrl rawUrl)
              (deriveId (inboxNormalizeUrl rawUrl)) m]).filterMap itemIdStr := hs
          rw [hfm] at hs2
          show s ∈ deriveId (inboxNormalizeUrl rawUrl) :: ids
          rcases List.mem_append.mp hs2 with hs3 | hs3
          · exact List.mem_cons_of_mem _ (hsub s hs3)
          · rcases List.mem_singleton.mp hs3 with rfl
            exact List.mem_cons_self _ _
        · intro s hs
          show s ∈ deriveId (inboxNormalizeUrl rawUrl) :: ids
          exact List.mem_cons_of_mem _ (hexist s hs)
        · intro s hs
          have hs2 : s ∈ (acc ++ [buildInboxItem rawUrl (inboxNormalizeUrl rawUrl)
              (deriveId (inboxNormalizeUrl rawUrl)) m]).filterMap itemIdStr := hs
          rw [hfm] at hs2
          rcases List.mem_append.mp hs2 with hs3 | hs3
          · exact hdisj s hs3
          · rcases List.mem_singleton.mp hs3 with rfl
            exact fun he => hmem (hexist _ he)
    intro st hP u
    rcases hm : u.msg with _ | m
    · have hstep : ingestUpdateStep chat st u = st := by
        rw [ingestUpdateStep, hm]
      rw [hstep]
      exact hP
    · by_cases hchat : m.chat_id ≠ chat
      · have hstep : ingestUpdateStep chat st u = st := by
          rw [ingestUpdateStep, hm]
          show (if m.chat_id ≠ chat then st
              else List.foldl (ingestUrlStep m) st (extractUrls m.text)) = st
          rw [if_pos hchat]
        rw [hstep]
        exact hP
      · have hstep : ingestUpdateStep chat st u
            = List.foldl (ingestUrlStep m) st (extractUrls m.text) := by
          rw [ingestUpdateStep, hm]
          show (if m.chat_id ≠ chat then st
              else List.foldl (ingestUrlStep m) st (extractUrls m.text))
            = List.foldl (ingestUrlStep m) st (extractUrls m.text)
          rw [if_neg hchat]
        rw [hstep]
        have := foldl_inv
          (fun st2 : List Str × List Json =>
            (st2.2.filterMap itemIdStr).Nodup
            ∧ (∀ s ∈ st2.2.filterMap itemIdStr, s ∈ st2.1)
            ∧ (∀ s ∈ buildExistingIds content, s ∈ st2.1)
            ∧ (∀ s ∈ st2.2.filterMap itemIdStr, s ∉ buildExistingIds content))
          (ingestUrlStep m) (fun st2 x hp2 => hurl m st2 x hp2)
          (extractUrls m.text) st hP
        exact this
  have hinit : (((buildExistingIds content, ([] : List Json)).2.filterMap itemIdStr).Nodup
      ∧ (∀ s ∈ ((buildExistingIds content, ([] : List Json)).2.filterMap itemIdStr),
          s ∈ (buildExistingIds content, ([] : List Json)).1)
      ∧ (∀ s ∈ buildExistingIds content, s ∈ (buildExistingIds content, ([] : List Json)).1)
      ∧ (∀ s ∈ ((buildExistingIds content, ([] : List Json)).2.filterMap itemIdStr),
          s ∉ buildExistingIds content)) :=
    ⟨List.nodup_nil, fun s hs => absurd hs (List.not_mem_nil _), fun s hs => hs,
     fun s hs => absurd hs (List.not_mem_nil _)⟩
  have hfinal := foldl_inv
    (fun st : List Str × List Json =>
      (st.2.filterMap itemIdStr).Nodup
      ∧ (∀ s ∈ st.2.filterMap itemIdStr, s ∈ st.1)
      ∧ (∀ s ∈ buildExistingIds content, s ∈ st.1)
      ∧ (∀ s ∈ st.2.filterMap itemIdStr, s ∉ buildExistingIds content))
    (ingestUpdateStep chat) (fun st u hp => hmain st hp u)
    updates (buildExistingIds content, []) hinit
  obtain ⟨hnd, hsub, hexist, hdisj⟩ := hfinal
  have hloaded : ∀ s ∈ (loadItemsStr content).filterMap itemIdStr,
      s ∈ buildExistingIds content := by
    intro s hs
    obtain ⟨it, hit, hid⟩ := List.mem_filterMap.mp hs
    rw [loadItemsStr] at hit
    obtain ⟨l, hl, hF⟩ := List.mem_filterMap.mp hit
    have hlmem : l ∈ splitNl content := List.mem_of_mem_filter hl
    rcases hp : parseJson l with _ | v
    · rw [hp] at hF; cases hF
    · rw [hp] at hF
      have hF2 : (if jsTruthy v = true then some v else none) = some it := hF
      rcases htr : jsTruthy v with _ | _
      · rw [htr] at hF2; simp at hF2
      · rw [htr] at hF2
        have hvit : v = it := by simpa using hF2
        have hskip : (skipWs l).isEmpty = false := by
          rcases hsw : skipWs l with _ | _
          · exact absurd hsw (parseJson_skipWs_ne_nil hp)
          · rfl
        refine List.mem_filterMap.mpr ⟨l, hlmem, ?_⟩
        have hline : lineExistingId l = itemIdStr v := by
          rw [lineExistingId, hskip, if_neg Bool.false_ne_true, hp]
          rfl
        rw [hline, hvit]
        exact hid
  refine ⟨hnd, hdisj, ?_⟩
  intro hnodup
  rw [List.filterMap_append, List.nodup_append]
  exact ⟨hnodup, hnd, fun a ha hb => hdisj a hb (hloaded a ha)⟩

set_option maxRecDepth 1000000 in
/-- Witness for C10: one update carrying one URL against the concrete log. -/
theorem claim10_witness :
    ((ingestRun (s2n "-1001234") (buildExistingIds fixFile) [fixUpdate]).filterMap
        itemIdStr).Nodup
    ∧ ((loadItemsStr fixFile
        ++ ingestRun (s2n "-1001234") (buildExistingIds fixFile) [fixUpdate]).filterMap
          itemIdStr).Nodup := by
  refine ⟨(claim10_ingest_no_duplicates (s2n "-1001234") fixFile [fixUpdate]).1, ?_⟩
  exact (claim10_ingest_no_duplicates (s2n "-1001234") fixFile [fixUpdate]).2.2 (by decide)

/-- Witness for C6 on a concrete two-item log. -/
theorem claim6_witness :
    (publishRun (some fixFile) .fail (s2n "2026-04-01T00:00:00Z")).1 = some fixFile
    ∧ publishRun (some fixFile) (.ok (some 42)) (s2n "2026-04-01T00:00:00Z")
        = (some (saveItems ((loadItems (some fixFile)).set 1
            (markPosted ((loadItems (some fixFile)).getD 1 .null)
              (s2n "2026-04-01T00:00:00Z") (some 42)))), .posted) := by
  constructor
  · exact (claim6_publish_at_most_once (some fixFile) (s2n "2026-04-01T00:00:00Z") (some 42)).1
  · exact ((claim6_publish_at_most_once (some fixFile) (s2n "2026-04-01T00:00:00Z")
      (some 42)).2.2 1 (by rfl)).1

end PostSoma
